import Mathlib

/-!
Verification of the object-pooling core of the gamecore.js repository
(martinwells/objects.js): the keyed doubly-linked node list
(src/linkedlist.js), the per-type object pool (src/pooled.js) and the
process-wide pool registry (the statics of gamecore.Pool).

Objects are identified by the numeric part of their unique id (the class
system builds uniqueId from a per-class monotone counter, so ids handed to
one pool's lists are modelled as naturals allocated from the pool's
counter). JavaScript numbers used as counts are modelled as Int, with
Math.round over fifths computed exactly. Thrown JS strings are modelled as
an inductive error type carrying the same identifying payload.
-/

namespace GC

/-- Modelled from the spec: gamecore.Hashtable (used for objToNodeMap and
the registry's pools map) is not part of the provided sources; the spec
treats it as a plain key-to-value map with get and put. We model it as an
association list where put replaces in place or appends. -/
def mapGet {α β : Type} [DecidableEq α] : List (α × β) → α → Option β
  | [], _ => none
  | (k, v) :: rest, x => if k = x then some v else mapGet rest x

/-- Modelled from the spec: Hashtable.put — replace the binding in place
if the key is present, otherwise append a new binding. -/
def mapPut {α β : Type} [DecidableEq α] : List (α × β) → α → β → List (α × β)
  | [], x, w => [(x, w)]
  | (k, v) :: rest, x, w => if k = x then (x, w) :: rest else (k, v) :: mapPut rest x w

/-- Mutation of the value stored under a key (models JS field assignment
through a node reference held in the map). Keys are untouched. -/
def mapUpdate {α β : Type} [DecidableEq α] (m : List (α × β)) (k : α) (f : β → β) :
    List (α × β) :=
  m.map (fun e => if e.1 = k then (e.1, f e.2) else e)

/-- gamecore.LinkedListNode: object reference (its unique id), forward and
backward links (ids of the neighbouring nodes), and the free flag. -/
structure Node where
  obj : Nat
  nextLinked : Option Nat
  prevLinked : Option Nat
  free : Bool
deriving DecidableEq, Repr

/-- The errors the pooling core can raise (JS throws strings; each carries
the identifying payload the corresponding string interpolates). -/
inductive PoolError where
  /-- LinkedList.add: "Attempting to add object: (id) twice to list (list)" -/
  | duplicateAdd (objId : Nat) (listId : Nat)
  /-- LinkedList.add: "Hmm, no last in the list -- that shouldn't happen here" -/
  | noLast (listId : Nat)
  /-- LinkedList.moveUp: "Oops, trying to move an object that isn't in the list" -/
  | notInList
  /-- A JS TypeError from dereferencing a null node reference. -/
  | typeError
  /-- Pool.release (static): "Oops, trying to release an object of type ... but no pool exists" -/
  | noSuchPool (typeName : String)
deriving DecidableEq, Repr

/-- gamecore.LinkedList: head and tail node ids, element count, and the
unique-id keyed map of cached nodes. listId models the list's own
uniqueId (it only appears in error payloads). -/
structure LinkedList where
  listId : Nat
  first : Option Nat
  last : Option Nat
  count : Int
  objToNodeMap : List (Nat × Node)
deriving DecidableEq, Repr

/-- A freshly constructed list (LinkedList.init). -/
def LinkedList.empty (listId : Nat) : LinkedList :=
  { listId := listId, first := none, last := none, count := 0, objToNodeMap := [] }

/-- LinkedList.getNode. -/
def LinkedList.getNode (l : LinkedList) (x : Nat) : Option Node :=
  mapGet l.objToNodeMap x

/-- The tail-append phase of LinkedList.add, after the node has been
created or reused (and put into the map with cleared links). Returns the
error (if any) together with the state as mutated so far, mirroring that a
JS throw leaves earlier field assignments in place. -/
def LinkedList.appendNode (l : LinkedList) (x : Nat) : Option PoolError × LinkedList :=
  match l.first with
  | none =>
      (none,
        { l with
          first := some x
          last := some x
          objToNodeMap := mapPut l.objToNodeMap x ⟨x, none, none, false⟩
          count := l.count + 1 })
  | some _ =>
      match l.last with
      | none => (some (.noLast l.listId), l)
      | some lastId =>
          let m1 := mapUpdate l.objToNodeMap lastId (fun nd => { nd with nextLinked := some x })
          let m2 := mapPut m1 x ⟨x, none, some lastId, false⟩
          (none, { l with objToNodeMap := m2, last := some x, count := l.count + 1 })

/-- LinkedList.add. Either reuses the object's cached node when it is
marked free, creates a fresh node when none is cached, or throws the
duplicate-add error when the cached node is a live member. -/
def LinkedList.addM (l : LinkedList) (x : Nat) : Option PoolError × LinkedList :=
  match l.getNode x with
  | some n =>
      if n.free = false then (some (.duplicateAdd x l.listId), l)
      else
        LinkedList.appendNode
          { l with objToNodeMap := mapPut l.objToNodeMap x ⟨x, none, none, false⟩ } x
  | none =>
      LinkedList.appendNode
        { l with objToNodeMap := mapPut l.objToNodeMap x ⟨x, none, none, false⟩ } x

/-- LinkedList.has. -/
def LinkedList.has (l : LinkedList) (x : Nat) : Bool :=
  match l.getNode x with
  | none => false
  | some n => !n.free

/-- LinkedList.remove. Returns whether an element was removed together
with the resulting list. -/
def LinkedList.remove (l : LinkedList) (x : Nat) : Bool × LinkedList :=
  match l.getNode x with
  | none => (false, l)
  | some n =>
      if n.free then (false, l)
      else
        let m1 := match n.prevLinked with
          | some p => mapUpdate l.objToNodeMap p (fun nd => { nd with nextLinked := n.nextLinked })
          | none => l.objToNodeMap
        let m2 := match n.nextLinked with
          | some q => mapUpdate m1 q (fun nd => { nd with prevLinked := n.prevLinked })
          | none => m1
        let first' := if n.prevLinked = none then n.nextLinked else l.first
        let last' := if n.nextLinked = none then n.prevLinked else l.last
        let m3 := mapPut m2 x ⟨n.obj, none, none, true⟩
        (true,
          { l with
            objToNodeMap := m3
            first := first'
            last := last'
            count := l.count - 1 })

/-- LinkedList.moveUp: swap the object's node with its predecessor. -/
def LinkedList.moveUp (l : LinkedList) (x : Nat) : Except PoolError LinkedList :=
  match l.getNode x with
  | none => .error .notInList
  | some c =>
      match c.prevLinked with
      | none => .ok l
      | some bId =>
          match mapGet l.objToNodeMap bId with
          | none => .error .typeError
          | some b =>
              let last' := if l.last = some x then some bId else l.last
              let oldCNext := c.nextLinked
              let m1 := match b.prevLinked with
                | some aId => mapUpdate l.objToNodeMap aId
                    (fun nd => { nd with nextLinked := some x })
                | none => l.objToNodeMap
              let m2 := mapPut m1 x { c with nextLinked := some bId, prevLinked := b.prevLinked }
              let m3 := mapPut m2 bId { b with nextLinked := oldCNext, prevLinked := some x }
              let first' := if l.first = some bId then some x else l.first
              .ok { l with objToNodeMap := m3, last := last', first := first' }

/-- LinkedList.moveDown: swap the object's node with its successor, by
delegating to moveUp on the successor and then fixing last. -/
def LinkedList.moveDown (l : LinkedList) (x : Nat) : Except PoolError LinkedList :=
  match l.getNode x with
  | none => .error .notInList
  | some b =>
      match b.nextLinked with
      | none => .ok l
      | some cId =>
          match mapGet l.objToNodeMap cId with
          | none => .error .typeError
          | some c =>
              match l.moveUp c.obj with
              | .error e => .error e
              | .ok l' =>
                  .ok (if l'.last = some cId then { l' with last := some x } else l')

/-- JS Math.round(n / 5) computed exactly over the integers: floor of
n/5 + 1/2 (the fractional part of n/5 is a fifth, so the half-up tie of
Math.round can never fire). -/
def jsRoundDiv5 (n : Int) : Int :=
  Int.fdiv (2 * n + 5) 10

/-- gamecore.Pool: the free and used keyed node lists, the initial size,
the per-type object counter the class system draws uniqueIds from
(Class.totalObjects), and the destroyed flags of the pooled objects
(default false, as on the Pooled prototype). -/
structure Pool where
  classTypeName : String
  freeList : LinkedList
  usedList : LinkedList
  initialSize : Int
  nextId : Nat
  destroyedMap : List (Nat × Bool)
deriving DecidableEq, Repr

/-- The destroyed flag of a pooled object (prototype default false). -/
def Pool.destroyed (p : Pool) (x : Nat) : Bool :=
  (mapGet p.destroyedMap x).getD false

/-- Pool.size: freeList.count + usedList.count. -/
def Pool.size (p : Pool) : Int :=
  p.freeList.count + p.usedList.count

/-- The loop of Pool.expand: construct a fresh instance (the constructor
bumps the class counter that uniqueIds come from) and add it to the free
list, howMany times. A throw from add aborts the loop, keeping the
additions already made. -/
def Pool.expandLoop : Nat → Pool → Option PoolError × Pool
  | 0, p => (none, p)
  | j + 1, p =>
      let objId := p.nextId
      let p1 := { p with nextId := p.nextId + 1 }
      match p1.freeList.addM objId with
      | (some e, fl) => (some e, { p1 with freeList := fl })
      | (none, fl) => Pool.expandLoop j { p1 with freeList := fl }

/-- Pool.expand: bump the registry-global totalPooled counter by howMany
(threaded explicitly as tp), then run the construction loop. The counter
is bumped before the loop, as in the source. -/
def Pool.expandM (tp : Int) (howMany : Int) (p : Pool) : Int × Option PoolError × Pool :=
  let res := Pool.expandLoop howMany.toNat p
  (tp + howMany, res.1, res.2)

/-- Pool.init: fresh free and used lists, then expand(initial). -/
def Pool.mkInit (typeName : String) (freeId usedId : Nat) (tp : Int) (initial : Int) :
    Int × Option PoolError × Pool :=
  Pool.expandM tp initial
    { classTypeName := typeName
      freeList := LinkedList.empty freeId
      usedList := LinkedList.empty usedId
      initialSize := initial
      nextId := 0
      destroyedMap := [] }

/-- The tail of Pool.acquire after the (possible) expansion: read the free
list's head object, remove it from the free list, clear its destroyed
flag, add it to the used list and return it. Dereferencing a null head is
a JS TypeError. -/
def Pool.acquireTake (tp : Int) (p : Pool) : Int × Except PoolError Nat × Pool :=
  match p.freeList.first with
  | none => (tp, .error .typeError, p)
  | some nid =>
      match mapGet p.freeList.objToNodeMap nid with
      | none => (tp, .error .typeError, p)
      | some n =>
          let obj := n.obj
          let fl := (p.freeList.remove obj).2
          let p1 := { p with freeList := fl, destroyedMap := mapPut p.destroyedMap obj false }
          match p1.usedList.addM obj with
          | (some e, ul) => (tp, .error e, { p1 with usedList := ul })
          | (none, ul) => (tp, .ok obj, { p1 with usedList := ul })

/-- Pool.acquire: if the free list is empty, first expand by
round(size()/5) + 1, then hand out the free list's head. -/
def Pool.acquireM (tp : Int) (p : Pool) : Int × Except PoolError Nat × Pool :=
  if p.freeList.first = none then
    let k := jsRoundDiv5 p.size + 1
    let res := Pool.expandM tp k p
    match res.2.1 with
    | some e => (res.1, .error e, res.2.2)
    | none => Pool.acquireTake res.1 res.2.2
  else
    Pool.acquireTake tp p

/-- Pool.release: add the object to the free list, remove it from the
used list, set its destroyed flag. A throw from the free list's add
aborts the call before the removal and the flag assignment. -/
def Pool.releaseM (p : Pool) (x : Nat) : Option PoolError × Pool :=
  match p.freeList.addM x with
  | (some e, fl) => (some e, { p with freeList := fl })
  | (none, fl) =>
      let ul := (p.usedList.remove x).2
      (none,
        { p with
          freeList := fl
          usedList := ul
          destroyedMap := mapPut p.destroyedMap x true })

/-- gamecore.Pool.INITIAL_POOL_SIZE. -/
def INITIAL_POOL_SIZE : Int := 1

/-- The registry statics of gamecore.Pool: the type-name keyed pools map
and the global totalPooled counter. createdLog is a ghost log recording
each pool construction, used to state the one-pool-per-type invariant. -/
structure Registry where
  pools : List (String × Pool)
  totalPooled : Int
  createdLog : List String
deriving DecidableEq, Repr

/-- The initial registry state: no pools, totalPooled = 0. -/
def Registry.start : Registry :=
  { pools := [], totalPooled := 0, createdLog := [] }

/-- gamecore.Pool.acquire (static): look up the pool for the type name,
lazily constructing it with INITIAL_POOL_SIZE instances on first use,
then delegate to the pool's acquire. -/
def Registry.acquireR (r : Registry) (t : String) : Except PoolError Nat × Registry :=
  match mapGet r.pools t with
  | some p =>
      let res := p.acquireM r.totalPooled
      (res.2.1, { r with pools := mapPut r.pools t res.2.2, totalPooled := res.1 })
  | none =>
      let ini := Pool.mkInit t 0 1 r.totalPooled INITIAL_POOL_SIZE
      match ini.2.1 with
      | some e => (.error e, { r with totalPooled := ini.1 })
      | none =>
          let r1 :=
            { r with
              pools := mapPut r.pools t ini.2.2
              totalPooled := ini.1
              createdLog := r.createdLog ++ [t] }
          let res := ini.2.2.acquireM r1.totalPooled
          (res.2.1, { r1 with pools := mapPut r1.pools t res.2.2, totalPooled := res.1 })

/-- gamecore.Pool.release (static): look up the pool for the released
object's runtime type and delegate; throw when no such pool exists. -/
def Registry.releaseR (r : Registry) (t : String) (x : Nat) : Option PoolError × Registry :=
  match mapGet r.pools t with
  | none => (some (.noSuchPool t), r)
  | some p =>
      let res := p.releaseM x
      (res.1, { r with pools := mapPut r.pools t res.2 })

/-- A direct call of expand(n) on the pool registered for a type (a
caller can only invoke expand through a pool that exists). -/
def Registry.expandR (r : Registry) (t : String) (n : Nat) : Option PoolError × Registry :=
  match mapGet r.pools t with
  | none => (none, r)
  | some p =>
      let res := p.expandM r.totalPooled (n : Int)
      (res.2.1, { r with pools := mapPut r.pools t res.2.2, totalPooled := res.1 })

/-- The registry operations a consumer can perform. -/
inductive RegOp where
  | acq (t : String)
  | rel (t : String) (x : Nat)
  | exp (t : String) (n : Nat)
deriving DecidableEq, Repr

/-- One registry operation; a thrown error propagates to the consumer but
the registry keeps the state as mutated so far. -/
def Registry.step (r : Registry) : RegOp → Registry
  | .acq t => (r.acquireR t).2
  | .rel t x => (r.releaseR t x).2
  | .exp t n => (r.expandR t n).2

/-- Running a sequence of registry operations from the initial state. -/
def Registry.run (ops : List RegOp) : Registry :=
  ops.foldl Registry.step Registry.start

/-! ### Well-formedness predicates and proof-level definitions -/

/-- The boundary link into a segment: the id of the segment's head, or
the given fallback when the segment is empty. -/
def bnd (v : List Nat) (q : Option Nat) : Option Nat :=
  match v with
  | [] => q
  | y :: _ => some y

/-- The boundary link out of a segment: the id of the segment's last
element, or the given fallback when the segment is empty. -/
def pOf (u : List Nat) (p : Option Nat) : Option Nat :=
  match u with
  | [] => p
  | y :: t => (y :: t).getLast?

/-- chainSeg m p s q: the ids s form a doubly linked segment in the node
map m — every id maps to a live node wrapping itself, the backward links
run p <- s0 <- s1 <- ... and the forward links run s0 -> s1 -> ... -> q. -/
def chainSeg (m : List (Nat × Node)) : Option Nat → List Nat → Option Nat → Bool
  | _, [], _ => true
  | p, x :: rest, q =>
      match mapGet m x with
      | none => false
      | some n =>
          n.obj == x && n.free == false && n.prevLinked == p &&
            n.nextLinked == bnd rest q && chainSeg m (some x) rest q

/-- A keyed node list is well formed with element sequence s: the links
describe s, first/last/count agree with s, s and the map keys have no
duplicates, every cached node wraps the object it is keyed by, and the
live (non-free) nodes are keyed exactly by the members of s. -/
def WFL (l : LinkedList) (s : List Nat) : Prop :=
  chainSeg l.objToNodeMap none s none = true
  ∧ l.first = s.head?
  ∧ l.last = s.getLast?
  ∧ l.count = (s.length : Int)
  ∧ s.Nodup
  ∧ (l.objToNodeMap.map Prod.fst).Nodup
  ∧ (∀ e ∈ l.objToNodeMap, (Prod.snd e).obj = e.1)
  ∧ (∀ e ∈ l.objToNodeMap, (Prod.snd e).free = false → e.1 ∈ s)

instance instDecidableWFL (l : LinkedList) (s : List Nat) : Decidable (WFL l s) := by
  unfold WFL
  infer_instance

/-- The two neighbour-relink assignments of LinkedList.remove, factored
out of the source's remove for the proofs below. -/
def unlinkMaps (m : List (Nat × Node)) (P Q : Option Nat) : List (Nat × Node) :=
  let m1 := match P with
    | some p => mapUpdate m p (fun nd => { nd with nextLinked := Q })
    | none => m
  match Q with
  | some q => mapUpdate m1 q (fun nd => { nd with prevLinked := P })
  | none => m1

/-- Pool state well-formedness: both lists represent some sequence. -/
def PWF (p : Pool) : Prop :=
  (∃ s, WFL p.freeList s) ∧ (∃ u, WFL p.usedList u)

/-- The pool the registry constructs lazily for a previously-unseen type:
INITIAL_POOL_SIZE (= 1) fresh instances, all on the free list. -/
def freshPool (t : String) : Pool :=
  { classTypeName := t
    freeList :=
      { listId := 0, first := some 0, last := some 0, count := 1
        objToNodeMap := [(0, ⟨0, none, none, false⟩)] }
    usedList := LinkedList.empty 1
    initialSize := 1
    nextId := 1
    destroyedMap := [] }

/-- The state of a freshly created pool right after the acquire that
created it: the single initial instance has moved to the used list. -/
def freshAcquired (t : String) : Pool :=
  { classTypeName := t
    freeList :=
      { listId := 0, first := none, last := none, count := 0
        objToNodeMap := [(0, ⟨0, none, none, true⟩)] }
    usedList :=
      { listId := 1, first := some 0, last := some 0, count := 1
        objToNodeMap := [(0, ⟨0, none, none, false⟩)] }
    initialSize := 1
    nextId := 1
    destroyedMap := [(0, false)] }

/-- The types a sequence of registry operations ever passes to acquire. -/
def acquiredTypes : List RegOp → List String
  | [] => []
  | RegOp.acq t :: rest => t :: acquiredTypes rest
  | RegOp.rel _ _ :: rest => acquiredTypes rest
  | RegOp.exp _ _ :: rest => acquiredTypes rest

/-- How many times a type occurs in the pool-construction log. -/
def logCount (log : List String) (t : String) : Nat :=
  (log.filter (fun a => a = t)).length

/-- The registry invariant: every registered pool is well formed, and the
construction log holds one entry exactly for each registered type. -/
def RInv (r : Registry) : Prop :=
  (∀ t p, mapGet r.pools t = some p → PWF p)
  ∧ (∀ t, logCount r.createdLog t = if (mapGet r.pools t).isSome then 1 else 0)

/-- Concrete scenario state: the pool a fresh Pool("Point", 1) yields. -/
def scenarioPool : Pool := (Pool.mkInit "Point" 0 1 0 1).2.2

/-- Concrete scenario state: after the first acquire on the fresh pool. -/
def scenarioAcquired : Pool :=
  (Pool.acquireM (Pool.mkInit "Point" 0 1 0 1).1 scenarioPool).2.2

/-- Concrete scenario state: after releasing the acquired object again. -/
def scenarioReleased : Pool := (Pool.releaseM scenarioAcquired 0).2

/-- Concrete keyed node list holding 1, 2, 3 in order. -/
def l123 : LinkedList := ((((LinkedList.empty 7).addM 1).2.addM 2).2.addM 3).2

/-! ### Association-map lemmas -/

theorem mapPut_nil {α β : Type} [DecidableEq α] (k : α) (v : β) :
    mapPut ([] : List (α × β)) k v = [(k, v)] := rfl

theorem mapPut_cons_eq {α β : Type} [DecidableEq α] {a k : α} (b : β) (rest : List (α × β))
    (v : β) (h : a = k) : mapPut ((a, b) :: rest) k v = (k, v) :: rest := by
  simp [mapPut, h]

theorem mapPut_cons_ne {α β : Type} [DecidableEq α] {a k : α} (b : β) (rest : List (α × β))
    (v : β) (h : ¬ a = k) : mapPut ((a, b) :: rest) k v = (a, b) :: mapPut rest k v := by
  simp [mapPut, h]

theorem mapGet_cons_eq {α β : Type} [DecidableEq α] {a x : α} (b : β) (rest : List (α × β))
    (h : a = x) : mapGet ((a, b) :: rest) x = some b := by
  simp [mapGet, h]

theorem mapGet_cons_ne {α β : Type} [DecidableEq α] {a x : α} (b : β) (rest : List (α × β))
    (h : ¬ a = x) : mapGet ((a, b) :: rest) x = mapGet rest x := by
  simp [mapGet, h]

theorem mapUpdate_nil {α β : Type} [DecidableEq α] (k : α) (f : β → β) :
    mapUpdate ([] : List (α × β)) k f = [] := rfl

theorem mapUpdate_cons_eq {α β : Type} [DecidableEq α] {a k : α} (b : β) (rest : List (α × β))
    (f : β → β) (h : a = k) :
    mapUpdate ((a, b) :: rest) k f = (a, f b) :: mapUpdate rest k f := by
  simp [mapUpdate, h]

theorem mapUpdate_cons_ne {α β : Type} [DecidableEq α] {a k : α} (b : β) (rest : List (α × β))
    (f : β → β) (h : ¬ a = k) :
    mapUpdate ((a, b) :: rest) k f = (a, b) :: mapUpdate rest k f := by
  simp [mapUpdate, h]

theorem mapGet_put_self {α β : Type} [DecidableEq α] (m : List (α × β)) (k : α) (v : β) :
    mapGet (mapPut m k v) k = some v := by
  induction m with
  | nil => simp [mapPut, mapGet]
  | cons e rest ih =>
      obtain ⟨a, b⟩ := e
      by_cases h : a = k
      · rw [mapPut_cons_eq b rest v h, mapGet_cons_eq v rest rfl]
      · rw [mapPut_cons_ne b rest v h, mapGet_cons_ne _ _ h]
        exact ih

theorem mapGet_put_ne {α β : Type} [DecidableEq α] (m : List (α × β)) (k k' : α) (v : β)
    (h : k ≠ k') : mapGet (mapPut m k v) k' = mapGet m k' := by
  induction m with
  | nil => simp [mapPut, mapGet, h]
  | cons e rest ih =>
      obtain ⟨a, b⟩ := e
      by_cases ha : a = k
      · subst ha
        rw [mapPut_cons_eq b rest v rfl, mapGet_cons_ne _ _ h, mapGet_cons_ne _ _ h]
      · rw [mapPut_cons_ne b rest v ha]
        by_cases hb : a = k'
        · rw [mapGet_cons_eq _ _ hb, mapGet_cons_eq _ _ hb]
        · rw [mapGet_cons_ne _ _ hb, mapGet_cons_ne _ _ hb]
          exact ih

theorem mapGet_update {α β : Type} [DecidableEq α] (m : List (α × β)) (k x : α) (f : β → β) :
    mapGet (mapUpdate m k f) x =
      if x = k then (mapGet m x).map f else mapGet m x := by
  induction m with
  | nil => simp [mapUpdate, mapGet]
  | cons e rest ih =>
      obtain ⟨a, b⟩ := e
      by_cases ha : a = k
      · rw [mapUpdate_cons_eq b rest f ha]
        by_cases hax : a = x
        · rw [mapGet_cons_eq _ _ hax, mapGet_cons_eq _ _ hax, if_pos (hax ▸ ha.symm ▸ rfl)]
          · rfl
        · rw [mapGet_cons_ne _ _ hax, mapGet_cons_ne _ _ hax, ih]
      · rw [mapUpdate_cons_ne b rest f ha]
        by_cases hax : a = x
        · have hxk : ¬ x = k := fun hh => ha (hax.trans hh)
          rw [mapGet_cons_eq _ _ hax, mapGet_cons_eq _ _ hax, if_neg hxk]
        · rw [mapGet_cons_ne _ _ hax, mapGet_cons_ne _ _ hax, ih]

theorem keys_mapUpdate {α β : Type} [DecidableEq α] (m : List (α × β)) (k : α) (f : β → β) :
    (mapUpdate m k f).map Prod.fst = m.map Prod.fst := by
  induction m with
  | nil => rfl
  | cons e rest ih =>
      obtain ⟨a, b⟩ := e
      by_cases h : a = k
      · rw [mapUpdate_cons_eq b rest f h]
        simpa using ih
      · rw [mapUpdate_cons_ne b rest f h]
        simpa using ih

theorem keys_mapPut_mem {α β : Type} [DecidableEq α] (m : List (α × β)) (k : α) (v : β)
    (h : k ∈ m.map Prod.fst) : (mapPut m k v).map Prod.fst = m.map Prod.fst := by
  induction m with
  | nil => simp at h
  | cons e rest ih =>
      obtain ⟨a, b⟩ := e
      by_cases ha : a = k
      · rw [mapPut_cons_eq b rest v ha]
        simp [ha]
      · rw [mapPut_cons_ne b rest v ha]
        simp only [List.map, List.mem_cons] at h
        rcases h with h | h
        · exact absurd h.symm ha
        · simpa using ih h

theorem keys_mapPut_not_mem {α β : Type} [DecidableEq α] (m : List (α × β)) (k : α) (v : β)
    (h : k ∉ m.map Prod.fst) : (mapPut m k v).map Prod.fst = m.map Prod.fst ++ [k] := by
  induction m with
  | nil => simp [mapPut]
  | cons e rest ih =>
      obtain ⟨a, b⟩ := e
      simp only [List.map, List.mem_cons] at h
      push_neg at h
      have ha : ¬ a = k := fun hh => h.1 hh.symm
      rw [mapPut_cons_ne b rest v ha]
      simpa using ih h.2

theorem mapGet_isSome_iff {α β : Type} [DecidableEq α] (m : List (α × β)) (k : α) :
    (mapGet m k).isSome = true ↔ k ∈ m.map Prod.fst := by
  induction m with
  | nil => simp [mapGet]
  | cons e rest ih =>
      obtain ⟨a, b⟩ := e
      by_cases h : a = k
      · rw [mapGet_cons_eq _ _ h]
        simp [h]
      · rw [mapGet_cons_ne _ _ h]
        have h2 : ¬ k = a := fun hh => h hh.symm
        simp [h2, ih]

theorem mapGet_mem {α β : Type} [DecidableEq α] {m : List (α × β)} {k : α} {v : β}
    (h : mapGet m k = some v) : (k, v) ∈ m := by
  induction m with
  | nil => simp [mapGet] at h
  | cons e rest ih =>
      obtain ⟨a, b⟩ := e
      by_cases ha : a = k
      · rw [mapGet_cons_eq _ _ ha] at h
        subst ha
        simp at h
        simp [h]
      · rw [mapGet_cons_ne _ _ ha] at h
        exact List.mem_cons_of_mem _ (ih h)

theorem mem_mapPut {α β : Type} [DecidableEq α] {m : List (α × β)} {k : α} {v : β}
    {e : α × β} (hnd : (m.map Prod.fst).Nodup) (he : e ∈ mapPut m k v) :
    e = (k, v) ∨ (e ∈ m ∧ e.1 ≠ k) := by
  induction m with
  | nil =>
      rw [mapPut_nil] at he
      simp at he
      exact Or.inl he
  | cons hd rest ih =>
      obtain ⟨a, b⟩ := hd
      simp only [List.map, List.nodup_cons] at hnd
      by_cases ha : a = k
      · subst ha
        rw [mapPut_cons_eq b rest v rfl] at he
        rcases List.mem_cons.mp he with he | he
        · exact Or.inl he
        · refine Or.inr ⟨List.mem_cons_of_mem _ he, fun hk => ?_⟩
          exact hnd.1 (hk ▸ List.mem_map_of_mem Prod.fst he)
      · rw [mapPut_cons_ne b rest v ha] at he
        rcases List.mem_cons.mp he with he | he
        · subst he
          exact Or.inr ⟨List.mem_cons_self _ _, ha⟩
        · rcases ih hnd.2 he with h | h
          · exact Or.inl h
          · exact Or.inr ⟨List.mem_cons_of_mem _ h.1, h.2⟩

theorem mem_mapUpdate {α β : Type} [DecidableEq α] {m : List (α × β)} {k : α} {f : β → β}
    {e : α × β} (he : e ∈ mapUpdate m k f) :
    (∃ w, (k, w) ∈ m ∧ e = (k, f w)) ∨ (e ∈ m ∧ e.1 ≠ k) := by
  simp only [mapUpdate, List.mem_map] at he
  obtain ⟨e', he', heq⟩ := he
  by_cases h : e'.1 = k
  · left
    refine ⟨e'.2, ?_, ?_⟩
    · have hsp : e' = (k, e'.2) := by
        obtain ⟨x, y⟩ := e'
        simp only at h
        simp [h]
      exact hsp ▸ he'
    · rw [if_pos h] at heq
      rw [← heq, h]
  · right
    rw [if_neg h] at heq
    exact ⟨heq ▸ he', heq ▸ h⟩

theorem mapPut_put_same {α β : Type} [DecidableEq α] (m : List (α × β)) (k : α) (v w : β) :
    mapPut (mapPut m k v) k w = mapPut m k w := by
  induction m with
  | nil => simp [mapPut]
  | cons e rest ih =>
      obtain ⟨a, b⟩ := e
      by_cases ha : a = k
      · rw [mapPut_cons_eq b rest v ha, mapPut_cons_eq v rest w rfl, mapPut_cons_eq b rest w ha]
      · rw [mapPut_cons_ne b rest v ha, mapPut_cons_ne b (mapPut rest k v) w ha,
          mapPut_cons_ne b rest w ha, ih]

theorem keys_mapPut_nodup {α β : Type} [DecidableEq α] (m : List (α × β)) (k : α) (v : β)
    (hnd : (m.map Prod.fst).Nodup) : ((mapPut m k v).map Prod.fst).Nodup := by
  by_cases h : k ∈ m.map Prod.fst
  · rw [keys_mapPut_mem m k v h]
    exact hnd
  · rw [keys_mapPut_not_mem m k v h, List.nodup_append]
    refine ⟨hnd, List.nodup_singleton k, fun x hx hxk => ?_⟩
    simp at hxk
    exact h (hxk ▸ hx)


/-! ### The chain representation of a well-formed keyed node list -/

theorem chainSeg_cons_none {m : List (Nat × Node)} {x : Nat} {p q : Option Nat}
    {rest : List Nat} (hg : mapGet m x = none) :
    chainSeg m p (x :: rest) q = false := by
  simp [chainSeg, hg]

theorem chainSeg_cons_some {m : List (Nat × Node)} {x : Nat} {p q : Option Nat}
    {rest : List Nat} {n : Node} (hg : mapGet m x = some n) :
    chainSeg m p (x :: rest) q =
      (n.obj == x && n.free == false && n.prevLinked == p &&
        n.nextLinked == bnd rest q && chainSeg m (some x) rest q) := by
  simp [chainSeg, hg]

theorem chainSeg_congr {m m' : List (Nat × Node)} {s : List Nat} (p q : Option Nat)
    (hag : ∀ x ∈ s, mapGet m' x = mapGet m x) :
    chainSeg m' p s q = chainSeg m p s q := by
  induction s generalizing p with
  | nil => rfl
  | cons x rest ih =>
      have hx := hag x (List.mem_cons_self _ _)
      have hrest : ∀ y ∈ rest, mapGet m' y = mapGet m y :=
        fun y hy => hag y (List.mem_cons_of_mem _ hy)
      cases hg : mapGet m x with
      | none => rw [chainSeg_cons_none (hx.trans hg), chainSeg_cons_none hg]
      | some n =>
          rw [chainSeg_cons_some (hx.trans hg), chainSeg_cons_some hg, ih (some x) hrest]

theorem chainSeg_node {m : List (Nat × Node)} {s : List Nat} {p q : Option Nat} {x : Nat}
    (hc : chainSeg m p s q = true) (hx : x ∈ s) :
    ∃ n, mapGet m x = some n ∧ n.obj = x ∧ n.free = false := by
  induction s generalizing p with
  | nil => simp at hx
  | cons y rest ih =>
      cases hg : mapGet m y with
      | none => rw [chainSeg_cons_none hg] at hc; exact absurd hc (by simp)
      | some n =>
          rw [chainSeg_cons_some hg] at hc
          simp only [Bool.and_eq_true, beq_iff_eq] at hc
          rcases List.mem_cons.mp hx with hx | hx
          · subst hx
            exact ⟨n, hg, hc.1.1.1.1, by simpa using hc.1.1.1.2⟩
          · exact ih hc.2 hx

theorem chainSeg_head {m : List (Nat × Node)} {rest : List Nat} {p q : Option Nat} {x : Nat}
    {n : Node} (hc : chainSeg m p (x :: rest) q = true) (hg : mapGet m x = some n) :
    n.obj = x ∧ n.free = false ∧ n.prevLinked = p ∧ n.nextLinked = bnd rest q
      ∧ chainSeg m (some x) rest q = true := by
  rw [chainSeg_cons_some hg] at hc
  simp only [Bool.and_eq_true, beq_iff_eq] at hc
  exact ⟨hc.1.1.1.1, by simpa using hc.1.1.1.2, hc.1.1.2, hc.1.2, hc.2⟩

theorem chainSeg_append_iff (m : List (Nat × Node)) (u v : List Nat) (p q : Option Nat) :
    chainSeg m p (u ++ v) q = (chainSeg m p u (bnd v q) && chainSeg m (pOf u p) v q) := by
  induction u generalizing p with
  | nil => simp [chainSeg, pOf]
  | cons x rest ih =>
      have hp : pOf (x :: rest) p = pOf rest (some x) := by
        cases rest with
        | nil => simp [pOf]
        | cons y t => simp [pOf, List.getLast?_cons_cons]
      have hb : bnd (rest ++ v) q = bnd rest (bnd v q) := by
        cases rest <;> simp [bnd]
      rw [List.cons_append]
      cases hg : mapGet m x with
      | none =>
          rw [chainSeg_cons_none hg, chainSeg_cons_none hg]
          simp
      | some n =>
          rw [chainSeg_cons_some hg, chainSeg_cons_some hg, hb, ih (some x), hp]
          cases hc1 : (n.obj == x && n.free == false && n.prevLinked == p &&
              n.nextLinked == bnd rest (bnd v q)) <;>
            cases hc2 : chainSeg m (some x) rest (bnd v q) <;>
            cases hc3 : chainSeg m (pOf rest (some x)) v q <;> simp

theorem chainSeg_retarget {m : List (Nat × Node)} {u : List Nat} {p oldq : Option Nat}
    {L : Nat} (hc : chainSeg m p u oldq = true) (hL : u.getLast? = some L)
    (hnd : u.Nodup) (t : Option Nat) :
    chainSeg (mapUpdate m L (fun nd => { nd with nextLinked := t })) p u t = true := by
  induction u generalizing p with
  | nil => simp at hL
  | cons x rest ih =>
      cases hg : mapGet m x with
      | none => rw [chainSeg_cons_none hg] at hc; exact absurd hc (by simp)
      | some n =>
          obtain ⟨hobj, hfree, hprev, hnext, hrest⟩ := chainSeg_head hc hg
          cases rest with
          | nil =>
              have hLx : L = x := by
                simp [List.getLast?] at hL
                exact hL.symm
              subst hLx
              have hg2 : mapGet (mapUpdate m L (fun nd => { nd with nextLinked := t })) L =
                  some { n with nextLinked := t } := by
                rw [mapGet_update, if_pos rfl, hg]
                rfl
              rw [chainSeg_cons_some hg2]
              simp [hobj, hfree, hprev, bnd, chainSeg]
          | cons y t2 =>
              rw [List.getLast?_cons_cons] at hL
              have hndr : (y :: t2).Nodup := (List.nodup_cons.mp hnd).2
              have hxnot : x ∉ y :: t2 := (List.nodup_cons.mp hnd).1
              have hxL : ¬ x = L := by
                intro hh
                exact hxnot (hh ▸ List.mem_of_mem_getLast? (show L ∈ (y :: t2).getLast? by
                  rw [hL]; rfl))
              have hg2 : mapGet (mapUpdate m L (fun nd => { nd with nextLinked := t })) x =
                  some n := by
                rw [mapGet_update, if_neg hxL, hg]
              rw [chainSeg_cons_some hg2]
              simp only [Bool.and_eq_true, beq_iff_eq]
              refine ⟨⟨⟨⟨by simp [hobj], by simp [hfree]⟩, by simp [hprev]⟩, ?_⟩, ih hrest hL hndr⟩
              simpa [bnd] using hnext

theorem chainSeg_reprev {m : List (Nat × Node)} {rest : List Nat} {oldp q : Option Nat}
    {y : Nat} (hc : chainSeg m oldp (y :: rest) q = true) (hnd : y ∉ rest)
    (P : Option Nat) :
    chainSeg (mapUpdate m y (fun nd => { nd with prevLinked := P })) P (y :: rest) q = true := by
  cases hg : mapGet m y with
  | none => rw [chainSeg_cons_none hg] at hc; exact absurd hc (by simp)
  | some n =>
      obtain ⟨hobj, hfree, _, hnext, hrest⟩ := chainSeg_head hc hg
      have hg2 : mapGet (mapUpdate m y (fun nd => { nd with prevLinked := P })) y =
          some { n with prevLinked := P } := by
        rw [mapGet_update, if_pos rfl, hg]
        rfl
      have hag : ∀ z ∈ rest, mapGet (mapUpdate m y (fun nd => { nd with prevLinked := P })) z
          = mapGet m z := by
        intro z hz
        rw [mapGet_update, if_neg (fun hh : z = y => hnd (hh ▸ hz))]
      have hcongr : chainSeg (mapUpdate m y (fun nd => { nd with prevLinked := P }))
          (some y) rest q = true := by
        rw [chainSeg_congr (some y) q hag]
        exact hrest
      rw [chainSeg_cons_some hg2]
      simp [hobj, hfree, hnext, hcongr]


/-! ### Behaviour of add on well-formed lists -/

theorem WFL_mem_nonfree {l : LinkedList} {s : List Nat} {x : Nat} (h : WFL l s) (hx : x ∈ s) :
    ∃ n, l.getNode x = some n ∧ n.obj = x ∧ n.free = false :=
  chainSeg_node h.1 hx

theorem WFL_not_mem {l : LinkedList} {s : List Nat} {x : Nat} (h : WFL l s) (hx : x ∉ s) :
    l.getNode x = none ∨ ∃ n, l.getNode x = some n ∧ n.free = true := by
  cases hg : l.getNode x with
  | none => exact Or.inl rfl
  | some n =>
      refine Or.inr ⟨n, rfl, ?_⟩
      cases hfree : n.free with
      | true => rfl
      | false =>
          have hmem := h.2.2.2.2.2.2.2 (x, n) (mapGet_mem hg) hfree
          exact absurd hmem hx

theorem addM_dup {l : LinkedList} {x : Nat} {n : Node} (hg : l.getNode x = some n)
    (hf : n.free = false) : l.addM x = (some (.duplicateAdd x l.listId), l) := by
  simp [LinkedList.addM, hg, hf]

theorem addM_eq_append {l : LinkedList} {x : Nat}
    (hfree : l.getNode x = none ∨ ∃ n, l.getNode x = some n ∧ n.free = true) :
    l.addM x = LinkedList.appendNode
      { l with objToNodeMap := mapPut l.objToNodeMap x ⟨x, none, none, false⟩ } x := by
  rcases hfree with hg | ⟨n, hg, hf⟩
  · simp [LinkedList.addM, hg]
  · simp [LinkedList.addM, hg, hf]

theorem appendNode_first_none {l : LinkedList} {x : Nat} (hf : l.first = none) :
    l.appendNode x = (none,
      { l with
        first := some x
        last := some x
        objToNodeMap := mapPut l.objToNodeMap x ⟨x, none, none, false⟩
        count := l.count + 1 }) := by
  simp [LinkedList.appendNode, hf]

theorem appendNode_some_some {l : LinkedList} {x f L : Nat} (hf : l.first = some f)
    (hL : l.last = some L) :
    l.appendNode x = (none,
      { l with
        objToNodeMap := mapPut
          (mapUpdate l.objToNodeMap L (fun nd => { nd with nextLinked := some x }))
          x ⟨x, none, some L, false⟩
        last := some x
        count := l.count + 1 }) := by
  simp [LinkedList.appendNode, hf, hL]

theorem appendNode_no_last {l : LinkedList} {x f : Nat} (hf : l.first = some f)
    (hL : l.last = none) :
    l.appendNode x = (some (.noLast l.listId), l) := by
  simp [LinkedList.appendNode, hf, hL]

theorem addM_ok_of_not_mem {l : LinkedList} {s : List Nat} {x : Nat}
    (h : WFL l s) (hx : x ∉ s) :
    (l.addM x).1 = none ∧ (l.addM x).2.listId = l.listId ∧ WFL (l.addM x).2 (s ++ [x]) := by
  obtain ⟨hch, hfst, hlst, hcnt, hnd, hknd, hobj, hfr⟩ := h
  rw [addM_eq_append (WFL_not_mem ⟨hch, hfst, hlst, hcnt, hnd, hknd, hobj, hfr⟩ hx)]
  have hkndPre : ((mapPut l.objToNodeMap x ⟨x, none, none, false⟩).map Prod.fst).Nodup :=
    keys_mapPut_nodup _ _ _ hknd
  cases s with
  | nil =>
      have hf : l.first = none := by rw [hfst]; rfl
      rw [appendNode_first_none (l := { l with
        objToNodeMap := mapPut l.objToNodeMap x ⟨x, none, none, false⟩ }) hf]
      dsimp only
      refine ⟨rfl, rfl, ?_, rfl, rfl, ?_, ?_, ?_, ?_, ?_⟩
      · rw [mapPut_put_same]
        show chainSeg (mapPut l.objToNodeMap x ⟨x, none, none, false⟩) none [x] none = true
        rw [chainSeg_cons_some (mapGet_put_self l.objToNodeMap x ⟨x, none, none, false⟩)]
        simp [bnd, chainSeg]
      · have h0 : l.count = 0 := by simpa using hcnt
        simp [h0]
      · simp
      · rw [mapPut_put_same]
        exact keys_mapPut_nodup _ _ _ hknd
      · rw [mapPut_put_same]
        intro e he
        rcases mem_mapPut hknd he with he | he
        · rw [he]
        · exact hobj e he.1
      · rw [mapPut_put_same]
        intro e he hef
        rcases mem_mapPut hknd he with he | he
        · rw [he]
          simp
        · exact absurd (hfr e he.1 hef) (List.not_mem_nil _)
  | cons y t =>
      have hf : l.first = some y := by rw [hfst]; rfl
      obtain ⟨L, hL⟩ : ∃ L, (y :: t).getLast? = some L :=
        ⟨(y :: t).getLast (by simp), List.getLast?_eq_getLast _ _⟩
      have hLl : l.last = some L := by rw [hlst, hL]
      have hLmem : L ∈ y :: t := List.mem_of_mem_getLast? (by rw [hL]; rfl)
      have hLx : ¬ L = x := fun hh => hx (hh ▸ hLmem)
      rw [appendNode_some_some (l := { l with
        objToNodeMap := mapPut l.objToNodeMap x ⟨x, none, none, false⟩ }) hf hLl]
      dsimp only
      set v0 : Node := ⟨x, none, none, false⟩ with hv0
      set v1 : Node := ⟨x, none, some L, false⟩ with hv1
      set mPre := mapPut l.objToNodeMap x v0 with hmPre
      set m1 := mapUpdate mPre L (fun nd => { nd with nextLinked := some x }) with hm1
      set m2 := mapPut m1 x v1 with hm2
      have hkndM1 : (m1.map Prod.fst).Nodup := by
        rw [hm1, keys_mapUpdate]
        exact hkndPre
      have hchainPre : chainSeg mPre none (y :: t) none = true := by
        rw [chainSeg_congr none none (fun z hz =>
          mapGet_put_ne l.objToNodeMap x z v0 (fun hh => hx (hh ▸ hz)))]
        exact hch
      have hchain1 : chainSeg m1 none (y :: t) (some x) = true :=
        chainSeg_retarget hchainPre hL hnd (some x)
      have hchain2 : chainSeg m2 none (y :: t) (some x) = true := by
        rw [chainSeg_congr none (some x) (fun z hz =>
          mapGet_put_ne m1 x z v1 (fun hh => hx (hh ▸ hz)))]
        exact hchain1
      refine ⟨rfl, rfl, ?_, ?_, ?_, ?_, ?_, ?_, ?_, ?_⟩
      · show chainSeg m2 none ((y :: t) ++ [x]) none = true
        rw [chainSeg_append_iff]
        have hpOf : pOf (y :: t) none = some L := by
          simp [pOf, hL]
        rw [hpOf]
        have hxpart : chainSeg m2 (some L) [x] none = true := by
          rw [chainSeg_cons_some (mapGet_put_self m1 x v1)]
          simp [bnd, chainSeg, hv1]
        simp [bnd, hchain2, hxpart]
      · show l.first = ((y :: t) ++ [x]).head?
        simp [hfst]
      · show some x = ((y :: t) ++ [x]).getLast?
        rw [List.getLast?_concat]
      · show l.count + 1 = (((y :: t) ++ [x]).length : Int)
        simp only [hcnt, List.length_append, List.length_cons, List.length_nil,
          Nat.cast_add, Nat.cast_one, Nat.cast_zero]
        ring
      · rw [List.nodup_append]
        refine ⟨hnd, List.nodup_singleton x, fun z hz hzx => ?_⟩
        simp at hzx
        exact hx (hzx ▸ hz)
      · exact keys_mapPut_nodup _ _ _ hkndM1
      · intro e he
        rcases mem_mapPut hkndM1 he with he | he
        · rw [he]
        · rcases mem_mapUpdate he.1 with ⟨w, hw, hew⟩ | hee
          · rw [hew]
            have hwobj : w.obj = L := by
              rcases mem_mapPut hknd hw with hww | hww
              · exact absurd (congrArg Prod.fst hww) (by simpa using hLx)
              · exact hobj (L, w) hww.1
            simpa using hwobj
          · rcases mem_mapPut hknd hee.1 with hee2 | hee2
            · exact absurd (congrArg Prod.fst hee2) (by simpa using he.2)
            · exact hobj e hee2.1
      · intro e he hef
        rcases mem_mapPut hkndM1 he with he | he
        · rw [he]
          simp
        · have hin : e.1 ∈ y :: t := by
            rcases mem_mapUpdate he.1 with ⟨w, hw, hew⟩ | hee
            · have hwf : w.free = false := by
                rw [hew] at hef
                simpa using hef
              rcases mem_mapPut hknd hw with hww | hww
              · exact absurd (congrArg Prod.fst hww) (by simpa using hLx)
              · have hmem := hfr (L, w) hww.1 hwf
                rw [hew]
                simpa using hmem
            · rcases mem_mapPut hknd hee.1 with hee2 | hee2
              · exact absurd (congrArg Prod.fst hee2) (by simpa using he.2)
              · exact hfr e hee2.1 hef
          exact List.mem_append_left _ hin


/-! ### Behaviour of remove on well-formed lists -/

theorem remove_none {l : LinkedList} {x : Nat} (hg : l.getNode x = none) :
    l.remove x = (false, l) := by
  simp [LinkedList.remove, hg]

theorem remove_free {l : LinkedList} {x : Nat} {n : Node} (hg : l.getNode x = some n)
    (hf : n.free = true) : l.remove x = (false, l) := by
  simp [LinkedList.remove, hg, hf]

theorem remove_not_mem {l : LinkedList} {s : List Nat} {x : Nat} (h : WFL l s) (hx : x ∉ s) :
    l.remove x = (false, l) := by
  rcases WFL_not_mem h hx with hg | ⟨n, hg, hf⟩
  · exact remove_none hg
  · exact remove_free hg hf

theorem remove_live {l : LinkedList} {x : Nat} {n : Node} (hg : l.getNode x = some n)
    (hf : n.free = false) :
    l.remove x = (true,
      { l with
        objToNodeMap := mapPut (unlinkMaps l.objToNodeMap n.prevLinked n.nextLinked) x
          ⟨n.obj, none, none, true⟩
        first := if n.prevLinked = none then n.nextLinked else l.first
        last := if n.nextLinked = none then n.prevLinked else l.last
        count := l.count - 1 }) := by
  cases hP : n.prevLinked <;> cases hQ : n.nextLinked <;>
    simp [LinkedList.remove, hg, hf, hP, hQ, unlinkMaps]

theorem keys_unlinkMaps (m : List (Nat × Node)) (P Q : Option Nat) :
    (unlinkMaps m P Q).map Prod.fst = m.map Prod.fst := by
  cases P <;> cases Q <;> simp [unlinkMaps, keys_mapUpdate]

theorem mem_linkUpd {m : List (Nat × Node)} {k : Nat} {f : Node → Node} {e : Nat × Node}
    (he : e ∈ mapUpdate m k f)
    (hpres : ∀ nd, (f nd).obj = nd.obj ∧ (f nd).free = nd.free) :
    ∃ w, (e.1, w) ∈ m ∧ e.2.obj = w.obj ∧ e.2.free = w.free := by
  rcases mem_mapUpdate he with ⟨w, hw, hew⟩ | ⟨hem, _⟩
  · refine ⟨w, ?_, ?_, ?_⟩
    · rw [hew]
      exact hw
    · rw [hew]
      exact (hpres w).1
    · rw [hew]
      exact (hpres w).2
  · exact ⟨e.2, by simpa using hem, rfl, rfl⟩

theorem mem_unlinkMaps {m : List (Nat × Node)} {P Q : Option Nat} {e : Nat × Node}
    (he : e ∈ unlinkMaps m P Q) :
    ∃ w, (e.1, w) ∈ m ∧ e.2.obj = w.obj ∧ e.2.free = w.free := by
  cases P with
  | none =>
      cases Q with
      | none => exact ⟨e.2, by simpa using he, rfl, rfl⟩
      | some q =>
          simp only [unlinkMaps] at he
          exact mem_linkUpd he (fun nd => ⟨rfl, rfl⟩)
  | some p =>
      cases Q with
      | none =>
          simp only [unlinkMaps] at he
          exact mem_linkUpd he (fun nd => ⟨rfl, rfl⟩)
      | some q =>
          simp only [unlinkMaps] at he
          obtain ⟨w1, hw1, ho1, hf1⟩ := mem_linkUpd he (fun nd => ⟨rfl, rfl⟩)
          obtain ⟨w2, hw2, ho2, hf2⟩ := mem_linkUpd hw1 (fun nd => ⟨rfl, rfl⟩)
          exact ⟨w2, hw2, by rw [ho1]; exact ho2, by rw [hf1]; exact hf2⟩

theorem chainSeg_unlink_left {m : List (Nat × Node)} {s₁ : List Nat} {x L : Nat}
    {Q : Option Nat} (hc : chainSeg m none s₁ (some x) = true) (hL : s₁.getLast? = some L)
    (hnd : s₁.Nodup) (hQ : ∀ q, Q = some q → q ∉ s₁) :
    chainSeg (unlinkMaps m (some L) Q) none s₁ Q = true := by
  have h1 : chainSeg (mapUpdate m L (fun nd => { nd with nextLinked := Q })) none s₁ Q = true :=
    chainSeg_retarget hc hL hnd Q
  cases Q with
  | none => exact h1
  | some q =>
      have hag : ∀ z ∈ s₁,
          mapGet (mapUpdate (mapUpdate m L (fun nd => { nd with nextLinked := some q })) q
            (fun nd => { nd with prevLinked := some L })) z
          = mapGet (mapUpdate m L (fun nd => { nd with nextLinked := some q })) z := by
        intro z hz
        rw [mapGet_update, if_neg (fun hzq : z = q => (hQ q rfl) (hzq ▸ hz))]
      show chainSeg (mapUpdate (mapUpdate m L (fun nd => { nd with nextLinked := some q })) q
        (fun nd => { nd with prevLinked := some L })) none s₁ (some q) = true
      rw [chainSeg_congr none (some q) hag]
      exact h1

theorem chainSeg_unlink_right {m : List (Nat × Node)} {s₂ : List Nat} {x : Nat}
    {P : Option Nat} (hc : chainSeg m (some x) s₂ none = true) (hnd : s₂.Nodup)
    (hP : ∀ p, P = some p → p ∉ s₂) :
    chainSeg (unlinkMaps m P (bnd s₂ none)) P s₂ none = true := by
  cases s₂ with
  | nil => rfl
  | cons y v =>
      have hy : y ∉ v := (List.nodup_cons.mp hnd).1
      cases P with
      | none => exact chainSeg_reprev hc hy none
      | some p =>
          have hag : ∀ z ∈ y :: v, mapGet (mapUpdate m p
              (fun nd => { nd with nextLinked := bnd (y :: v) none })) z = mapGet m z := by
            intro z hz
            rw [mapGet_update, if_neg (fun hzp : z = p => (hP p rfl) (hzp ▸ hz))]
          have hm1 : chainSeg (mapUpdate m p
              (fun nd => { nd with nextLinked := bnd (y :: v) none })) (some x) (y :: v) none
              = true := by
            rw [chainSeg_congr (some x) none hag]
            exact hc
          exact chainSeg_reprev hm1 hy (some p)


theorem chainSeg_put_congr {m : List (Nat × Node)} {s : List Nat} {x : Nat} {v : Node}
    (p q : Option Nat) (hx : x ∉ s) (hc : chainSeg m p s q = true) :
    chainSeg (mapPut m x v) p s q = true := by
  rw [chainSeg_congr p q (fun z hz =>
    mapGet_put_ne m x z v (fun hh : x = z => hx (by rw [hh]; exact hz)))]
  exact hc

theorem getLast?_append_cons (l1 : List Nat) (y : Nat) (v : List Nat) :
    (l1 ++ y :: v).getLast? = (y :: v).getLast? := by
  rw [List.getLast?_append]
  cases hg : (y :: v).getLast? with
  | none => simp [List.getLast?] at hg
  | some w => simp [Option.or]

theorem remove_mem_wfl {l : LinkedList} {s : List Nat} {x : Nat} (h : WFL l s) (hx : x ∈ s) :
    (l.remove x).1 = true ∧ (l.remove x).2.listId = l.listId
      ∧ WFL (l.remove x).2 (s.erase x) := by
  obtain ⟨hch, hfst, hlst, hcnt, hnd, hknd, hobj, hfr⟩ := h
  obtain ⟨s₁, s₂, rfl⟩ := List.append_of_mem hx
  obtain ⟨hnd1, hndx2, hdisj⟩ := List.nodup_append.mp hnd
  have hxs1 : x ∉ s₁ := fun hh => hdisj hh (List.mem_cons_self _ _)
  have hxs2 : x ∉ s₂ := (List.nodup_cons.mp hndx2).1
  have hnd2 : s₂.Nodup := (List.nodup_cons.mp hndx2).2
  have herase : (s₁ ++ x :: s₂).erase x = s₁ ++ s₂ := by
    rw [List.erase_append_right _ hxs1, List.erase_cons_head]
  rw [chainSeg_append_iff] at hch
  simp only [Bool.and_eq_true] at hch
  obtain ⟨hchL, hchR⟩ := hch
  have hPmem : ∀ p, pOf s₁ none = some p → p ∈ s₁ := by
    intro p hp
    cases s₁ with
    | nil => simp [pOf] at hp
    | cons z u =>
        simp only [pOf] at hp
        exact List.mem_of_mem_getLast? (by rw [hp]; rfl)
  have hQmem : ∀ q, bnd s₂ none = some q → q ∈ s₂ := by
    intro q hq
    cases s₂ with
    | nil => simp [bnd] at hq
    | cons y v =>
        simp only [bnd, Option.some.injEq] at hq
        rw [← hq]
        exact List.mem_cons_self _ _
  have hPnot2 : ∀ p, pOf s₁ none = some p → p ∉ s₂ :=
    fun p hp hp2 => hdisj (hPmem p hp) (List.mem_cons_of_mem _ hp2)
  have hQnot1 : ∀ q, bnd s₂ none = some q → q ∉ s₁ :=
    fun q hq hq1 => hdisj hq1 (List.mem_cons_of_mem _ (hQmem q hq))
  have hkndU : ((unlinkMaps l.objToNodeMap (pOf s₁ none) (bnd s₂ none)).map Prod.fst).Nodup := by
    rw [keys_unlinkMaps]
    exact hknd
  cases hg : mapGet l.objToNodeMap x with
  | none =>
      rw [chainSeg_cons_none hg] at hchR
      exact absurd hchR (by simp)
  | some n =>
  obtain ⟨hnobj, hnfree, hnprev, hnnext, hchR2⟩ := chainSeg_head hchR hg
  rw [remove_live hg hnfree, herase, hnprev, hnnext]
  refine ⟨rfl, rfl, ?_, ?_, ?_, ?_, ?_, ?_, ?_, ?_⟩
  · show chainSeg (mapPut (unlinkMaps l.objToNodeMap (pOf s₁ none) (bnd s₂ none)) x
      ⟨n.obj, none, none, true⟩) none (s₁ ++ s₂) none = true
    rw [chainSeg_append_iff, Bool.and_eq_true]
    constructor
    · cases s₁ with
      | nil => rfl
      | cons z u =>
          obtain ⟨L, hL⟩ : ∃ L, (z :: u).getLast? = some L :=
            ⟨(z :: u).getLast (by simp), List.getLast?_eq_getLast _ _⟩
          have hPL : pOf (z :: u) none = some L := by simp [pOf, hL]
          rw [hPL]
          refine chainSeg_put_congr none (bnd s₂ none) hxs1 ?_
          exact chainSeg_unlink_left hchL hL hnd1 hQnot1
    · refine chainSeg_put_congr (pOf s₁ none) none hxs2 ?_
      exact chainSeg_unlink_right hchR2 hnd2 hPnot2
  · show (if pOf s₁ none = none then bnd s₂ none else l.first) = (s₁ ++ s₂).head?
    cases s₁ with
    | nil => cases s₂ <;> simp [pOf, bnd]
    | cons z u =>
        obtain ⟨L, hL⟩ : ∃ L, (z :: u).getLast? = some L :=
          ⟨(z :: u).getLast (by simp), List.getLast?_eq_getLast _ _⟩
        have hPL : pOf (z :: u) none = some L := by simp [pOf, hL]
        rw [hPL]
        simp only [if_neg (by simp : ¬ (some L : Option Nat) = none)]
        rw [hfst]
        rfl
  · show (if bnd s₂ none = none then pOf s₁ none else l.last) = (s₁ ++ s₂).getLast?
    cases s₂ with
    | nil =>
        simp only [bnd, if_pos rfl]
        cases s₁ with
        | nil => rfl
        | cons z u => simp [pOf]
    | cons y v =>
        simp only [bnd]
        rw [if_neg (by simp : ¬ (some y : Option Nat) = none)]
        rw [hlst, getLast?_append_cons s₁ x (y :: v), List.getLast?_cons_cons,
          getLast?_append_cons s₁ y v]
  · show l.count - 1 = ((s₁ ++ s₂).length : Int)
    simp only [hcnt, List.length_append, List.length_cons, Nat.cast_add, Nat.cast_one]
    ring
  · exact hnd.sublist ((List.sublist_cons_self x s₂).append_left s₁)
  · exact keys_mapPut_nodup _ _ _ hkndU
  · intro e he
    rcases mem_mapPut hkndU he with he | he
    · rw [he]
      simpa using hnobj
    · obtain ⟨w, hw, ho, hfq⟩ := mem_unlinkMaps he.1
      rw [ho]
      exact hobj (e.1, w) hw
  · intro e he hef
    rcases mem_mapPut hkndU he with he | he
    · rw [he] at hef
      simp at hef
    · obtain ⟨w, hw, ho, hfq⟩ := mem_unlinkMaps he.1
      have hwf : w.free = false := by rw [← hfq]; exact hef
      have hmem := hfr (e.1, w) hw hwf
      rcases List.mem_append.mp hmem with hmem | hmem
      · exact List.mem_append_left _ hmem
      · rcases List.mem_cons.mp hmem with hmem | hmem
        · exact absurd hmem he.2
        · exact List.mem_append_right _ hmem


/-! ### Pool-level lemmas -/

theorem jsRoundDiv5_pos {n : Int} (hn : 0 ≤ n) : 1 ≤ jsRoundDiv5 n + 1 := by
  have h0 : 0 ≤ jsRoundDiv5 n := Int.fdiv_nonneg (by omega) (by omega)
  omega

theorem addM_pwf {l : LinkedList} {s : List Nat} (x : Nat) (h : WFL l s) :
    (∃ s', WFL (l.addM x).2 s') ∧ (l.addM x).2.listId = l.listId := by
  by_cases hx : x ∈ s
  · obtain ⟨n, hg, _, hnf⟩ := WFL_mem_nonfree h hx
    rw [addM_dup hg hnf]
    exact ⟨⟨s, h⟩, rfl⟩
  · obtain ⟨h1, h2, h3⟩ := addM_ok_of_not_mem h hx
    exact ⟨⟨s ++ [x], h3⟩, h2⟩

theorem remove_pwf {l : LinkedList} {s : List Nat} (x : Nat) (h : WFL l s) :
    (∃ s', WFL (l.remove x).2 s') ∧ (l.remove x).2.listId = l.listId := by
  by_cases hx : x ∈ s
  · obtain ⟨h1, h2, h3⟩ := remove_mem_wfl h hx
    exact ⟨⟨_, h3⟩, h2⟩
  · rw [remove_not_mem h hx]
    exact ⟨⟨s, h⟩, rfl⟩

theorem expandLoop_succ_err {j : Nat} {p : Pool} {e : PoolError} {fl : LinkedList}
    (h : p.freeList.addM p.nextId = (some e, fl)) :
    Pool.expandLoop (j + 1) p = (some e, { p with nextId := p.nextId + 1, freeList := fl }) := by
  simp [Pool.expandLoop, h]

theorem expandLoop_succ_ok {j : Nat} {p : Pool} {fl : LinkedList}
    (h : p.freeList.addM p.nextId = (none, fl)) :
    Pool.expandLoop (j + 1) p
      = Pool.expandLoop j { p with nextId := p.nextId + 1, freeList := fl } := by
  simp [Pool.expandLoop, h]

theorem expandLoop_fresh : ∀ (j : Nat) (p : Pool) (s : List Nat), WFL p.freeList s →
    (∀ y ∈ s, y < p.nextId) →
    (Pool.expandLoop j p).1 = none
    ∧ WFL (Pool.expandLoop j p).2.freeList (s ++ (List.range j).map (fun i => p.nextId + i))
    ∧ (Pool.expandLoop j p).2.nextId = p.nextId + j
    ∧ (Pool.expandLoop j p).2.freeList.listId = p.freeList.listId
    ∧ (Pool.expandLoop j p).2.usedList = p.usedList
    ∧ (Pool.expandLoop j p).2.destroyedMap = p.destroyedMap
    ∧ (Pool.expandLoop j p).2.classTypeName = p.classTypeName := by
  intro j
  induction j with
  | zero =>
      intro p s hw hb
      refine ⟨rfl, ?_, rfl, rfl, rfl, rfl, rfl⟩
      simpa [Pool.expandLoop] using hw
  | succ j ih =>
      intro p s hw hb
      have hx : p.nextId ∉ s := fun hh => absurd (hb _ hh) (by omega)
      obtain ⟨h1, h2, h3⟩ := addM_ok_of_not_mem hw hx
      have hpair : p.freeList.addM p.nextId = (none, (p.freeList.addM p.nextId).2) := by
        rw [← h1]
      rw [expandLoop_succ_ok hpair]
      set p2 : Pool := { p with nextId := p.nextId + 1, freeList := (p.freeList.addM p.nextId).2 }
        with hp2
      have hn2 : p2.nextId = p.nextId + 1 := rfl
      have hb2 : ∀ y ∈ s ++ [p.nextId], y < p2.nextId := by
        intro y hy
        rw [hn2]
        rcases List.mem_append.mp hy with hy | hy
        · have := hb y hy
          omega
        · simp at hy
          omega
      obtain ⟨g1, g2, g3, g4, g5, g6, g7⟩ := ih p2 (s ++ [p.nextId]) h3 hb2
      have hids : (List.range (j + 1)).map (fun i => p.nextId + i)
          = p.nextId :: (List.range j).map (fun i => p2.nextId + i) := by
        rw [List.range_succ_eq_map, List.map_cons, List.map_map]
        refine congrArg₂ List.cons (by omega) ?_
        exact List.map_congr_left (fun a _ => by
          rw [hn2]
          simp [Function.comp]
          omega)
      refine ⟨g1, ?_, ?_, ?_, g5, g6, g7⟩
      · rw [hids, List.append_cons]
        exact g2
      · rw [g3, hn2]
        omega
      · rw [g4]
        exact h2

theorem expandLoop_pwf : ∀ (j : Nat) (p : Pool), PWF p →
    PWF (Pool.expandLoop j p).2 ∧ (Pool.expandLoop j p).2.usedList = p.usedList := by
  intro j
  induction j with
  | zero => intro p h; exact ⟨h, rfl⟩
  | succ j ih =>
      intro p h
      obtain ⟨⟨s, hfree⟩, hused⟩ := h
      rcases hres : p.freeList.addM p.nextId with ⟨e, fl⟩
      have hpw := addM_pwf p.nextId hfree
      rw [hres] at hpw
      cases e with
      | some err =>
          rw [expandLoop_succ_err hres]
          exact ⟨⟨hpw.1, hused⟩, rfl⟩
      | none =>
          rw [expandLoop_succ_ok hres]
          obtain ⟨hq, hu⟩ := ih { p with nextId := p.nextId + 1, freeList := fl }
            ⟨hpw.1, hused⟩
          exact ⟨hq, hu⟩


theorem mem_keys_put_self {α β : Type} [DecidableEq α] (m : List (α × β)) (k : α) (v : β) :
    k ∈ (mapPut m k v).map Prod.fst :=
  (mapGet_isSome_iff _ _).mp (by rw [mapGet_put_self]; rfl)

theorem appendNode_ok_node {lp : LinkedList} {x : Nat} (hap : (lp.appendNode x).1 = none) :
    ∃ nn, (lp.appendNode x).2.getNode x = some nn ∧ nn.free = false
      ∧ (lp.appendNode x).2.count = lp.count + 1 ∧ (lp.appendNode x).2.last = some x
      ∧ (lp.appendNode x).2.listId = lp.listId := by
  cases hfst : lp.first with
  | none =>
      rw [appendNode_first_none hfst]
      refine ⟨⟨x, none, none, false⟩, ?_, rfl, rfl, rfl, rfl⟩
      show mapGet (mapPut lp.objToNodeMap x ⟨x, none, none, false⟩) x
        = some ⟨x, none, none, false⟩
      rw [mapGet_put_self]
  | some f =>
      cases hlst : lp.last with
      | none =>
          rw [appendNode_no_last hfst hlst] at hap
          simp at hap
      | some L =>
          rw [appendNode_some_some hfst hlst]
          exact ⟨⟨x, none, some L, false⟩, mapGet_put_self _ _ _, rfl, rfl, rfl, rfl⟩

theorem addM_ok_node {l : LinkedList} {x : Nat} (h1 : (l.addM x).1 = none) :
    ∃ nn, (l.addM x).2.getNode x = some nn ∧ nn.free = false
      ∧ (l.addM x).2.count = l.count + 1 ∧ (l.addM x).2.last = some x
      ∧ (l.addM x).2.listId = l.listId := by
  cases hg : l.getNode x with
  | some n =>
      cases hnf : n.free with
      | false =>
          rw [addM_dup hg hnf] at h1
          simp at h1
      | true =>
          have heq := addM_eq_append (Or.inr ⟨n, hg, hnf⟩)
          rw [heq] at h1 ⊢
          exact appendNode_ok_node h1
  | none =>
      have heq := addM_eq_append (Or.inl hg)
      rw [heq] at h1 ⊢
      exact appendNode_ok_node h1


theorem acquireTake_eq {tp : Int} {p : Pool} {h : Nat} {n : Node}
    (hfst : p.freeList.first = some h)
    (hg : mapGet p.freeList.objToNodeMap h = some n) (hobj : n.obj = h)
    (haddN : (p.usedList.addM h).1 = none) :
    Pool.acquireTake tp p = (tp, .ok h,
      { p with
        freeList := (p.freeList.remove h).2
        usedList := (p.usedList.addM h).2
        destroyedMap := mapPut p.destroyedMap h false }) := by
  have hap : p.usedList.addM h = (none, (p.usedList.addM h).2) := by
    rw [← haddN]
  simp only [Pool.acquireTake, hfst, hg, hobj]
  rw [hap]

theorem acquireTake_wfl {tp : Int} {p : Pool} {h : Nat} {rest u : List Nat}
    (hfree : WFL p.freeList (h :: rest)) (hused : WFL p.usedList u) (hu : h ∉ u) :
    (Pool.acquireTake tp p).1 = tp
    ∧ (Pool.acquireTake tp p).2.1 = Except.ok h
    ∧ WFL (Pool.acquireTake tp p).2.2.freeList rest
    ∧ WFL (Pool.acquireTake tp p).2.2.usedList (u ++ [h])
    ∧ (Pool.acquireTake tp p).2.2.destroyed h = false
    ∧ (Pool.acquireTake tp p).2.2.nextId = p.nextId
    ∧ (Pool.acquireTake tp p).2.2.freeList.listId = p.freeList.listId
    ∧ (Pool.acquireTake tp p).2.2.usedList.listId = p.usedList.listId
    ∧ (Pool.acquireTake tp p).2.2.classTypeName = p.classTypeName := by
  have hfst : p.freeList.first = some h := by
    rw [hfree.2.1]
    rfl
  obtain ⟨n, hg, hobj, hnf⟩ := WFL_mem_nonfree hfree (List.mem_cons_self h rest)
  obtain ⟨hadd1, hadd2, hadd3⟩ := addM_ok_of_not_mem hused hu
  obtain ⟨hrem1, hrem2, hrem3⟩ := remove_mem_wfl hfree (List.mem_cons_self h rest)
  have herase : (h :: rest).erase h = rest := List.erase_cons_head h rest
  rw [herase] at hrem3
  rw [acquireTake_eq hfst hg hobj hadd1]
  refine ⟨rfl, rfl, hrem3, hadd3, ?_, rfl, hrem2, hadd2, rfl⟩
  show (mapGet (mapPut p.destroyedMap h false) h).getD false = false
  rw [mapGet_put_self]
  rfl

theorem acquireTake_pwf {tp : Int} {p : Pool} (hp : PWF p) :
    PWF (Pool.acquireTake tp p).2.2 ∧ (Pool.acquireTake tp p).1 = tp := by
  obtain ⟨⟨s, hfree⟩, ⟨u, hused⟩⟩ := hp
  cases hfst : p.freeList.first with
  | none =>
      simp only [Pool.acquireTake, hfst]
      exact ⟨⟨⟨s, hfree⟩, ⟨u, hused⟩⟩, trivial⟩
  | some nid =>
      cases hg : mapGet p.freeList.objToNodeMap nid with
      | none =>
          simp only [Pool.acquireTake, hfst, hg]
          exact ⟨⟨⟨s, hfree⟩, ⟨u, hused⟩⟩, trivial⟩
      | some n =>
          have hfw := remove_pwf n.obj hfree
          have huw := addM_pwf n.obj hused
          rcases hres : p.usedList.addM n.obj with ⟨e, ul⟩
          rw [hres] at huw
          simp only [Pool.acquireTake, hfst, hg]
          rw [hres]
          cases e with
          | some err => exact ⟨⟨hfw.1, huw.1⟩, rfl⟩
          | none => exact ⟨⟨hfw.1, huw.1⟩, rfl⟩

theorem PWF_size_nonneg {p : Pool} (hp : PWF p) : 0 ≤ p.size := by
  obtain ⟨⟨s, hfree⟩, ⟨u, hused⟩⟩ := hp
  have h1 := hfree.2.2.2.1
  have h2 := hused.2.2.2.1
  show 0 ≤ p.freeList.count + p.usedList.count
  rw [h1, h2]
  positivity

theorem acquireM_pwf {tp : Int} {p : Pool} (hp : PWF p) :
    PWF (Pool.acquireM tp p).2.2 ∧ tp ≤ (Pool.acquireM tp p).1 := by
  have hsz := PWF_size_nonneg hp
  have hk : 1 ≤ jsRoundDiv5 p.size + 1 := jsRoundDiv5_pos hsz
  by_cases hfst : p.freeList.first = none
  · have hloop := expandLoop_pwf (jsRoundDiv5 p.size + 1).toNat p hp
    simp only [Pool.acquireM, if_pos hfst, Pool.expandM]
    rcases hres : Pool.expandLoop (jsRoundDiv5 p.size + 1).toNat p with ⟨e, pe⟩
    rw [hres] at hloop
    cases e with
    | some err =>
        simp only
        exact ⟨hloop.1, by omega⟩
    | none =>
        simp only
        have htake := @acquireTake_pwf (tp + (jsRoundDiv5 p.size + 1)) pe hloop.1
        exact ⟨htake.1, by rw [htake.2]; omega⟩
  · simp only [Pool.acquireM, if_neg hfst]
    have htake := @acquireTake_pwf tp p hp
    exact ⟨htake.1, by rw [htake.2]⟩

theorem releaseM_dup {p : Pool} {x : Nat} {n : Node}
    (hg : p.freeList.getNode x = some n) (hnf : n.free = false) :
    Pool.releaseM p x = (some (.duplicateAdd x p.freeList.listId), p) := by
  have hd := addM_dup hg hnf
  simp [Pool.releaseM, hd]

theorem releaseM_pwf {p : Pool} (x : Nat) (hp : PWF p) : PWF (Pool.releaseM p x).2 := by
  obtain ⟨⟨s, hfree⟩, ⟨u, hused⟩⟩ := hp
  have hfw := addM_pwf x hfree
  have huw := remove_pwf x hused
  rcases hres : p.freeList.addM x with ⟨e, fl⟩
  rw [hres] at hfw
  simp only [Pool.releaseM, hres]
  cases e with
  | some err => exact ⟨hfw.1, ⟨u, hused⟩⟩
  | none => exact ⟨hfw.1, huw.1⟩

theorem releaseM_ok_node {p : Pool} {x : Nat} {p' : Pool}
    (h : Pool.releaseM p x = (none, p')) :
    ∃ n, p'.freeList.getNode x = some n ∧ n.free = false
      ∧ p'.freeList.listId = p.freeList.listId := by
  rcases hres : p.freeList.addM x with ⟨e, fl⟩
  cases e with
  | some err =>
      simp only [Pool.releaseM, hres] at h
      exact absurd (congrArg Prod.fst h) (by simp)
  | none =>
      simp only [Pool.releaseM, hres, Prod.mk.injEq] at h
      obtain ⟨-, h⟩ := h
      obtain ⟨nn, hn1, hn2, _, _, hn5⟩ := addM_ok_node (l := p.freeList) (x := x)
        (by rw [hres])
      rw [hres] at hn1 hn5
      refine ⟨nn, ?_, hn2, ?_⟩
      · rw [← h]
        exact hn1
      · rw [← h]
        exact hn5


/-! ### Registry lemmas -/

theorem mkInit_eq (t : String) (tp : Int) :
    Pool.mkInit t 0 1 tp 1 = (tp + 1, none, freshPool t) := rfl

theorem acquireM_fresh (t : String) (tp : Int) :
    Pool.acquireM tp (freshPool t) = (tp, .ok 0, freshAcquired t) := rfl

theorem freshAcquired_pwf (t : String) : PWF (freshAcquired t) := by
  constructor
  · refine ⟨[], ?_⟩
    show WFL { listId := 0, first := none, last := none, count := 0, objToNodeMap := [(0, ⟨0, none, none, true⟩)] } []
    decide
  · refine ⟨[0], ?_⟩
    show WFL { listId := 1, first := some 0, last := some 0, count := 1, objToNodeMap := [(0, ⟨0, none, none, false⟩)] } [0]
    decide

theorem acquireR_new {r : Registry} {t : String} (hget : mapGet r.pools t = none) :
    r.acquireR t = (.ok 0,
      { pools := mapPut r.pools t (freshAcquired t)
        totalPooled := r.totalPooled + 1
        createdLog := r.createdLog ++ [t] }) := by
  simp only [Registry.acquireR, hget, INITIAL_POOL_SIZE, mkInit_eq, acquireM_fresh]
  rw [mapPut_put_same]

theorem acquireR_old {r : Registry} {t : String} {p : Pool}
    (hget : mapGet r.pools t = some p) :
    r.acquireR t = ((p.acquireM r.totalPooled).2.1,
      { r with
        pools := mapPut r.pools t (p.acquireM r.totalPooled).2.2
        totalPooled := (p.acquireM r.totalPooled).1 }) := by
  simp only [Registry.acquireR, hget]

theorem releaseR_none {r : Registry} {t : String} (x : Nat)
    (hget : mapGet r.pools t = none) :
    r.releaseR t x = (some (.noSuchPool t), r) := by
  simp only [Registry.releaseR, hget]

theorem releaseR_some {r : Registry} {t : String} {p : Pool} (x : Nat)
    (hget : mapGet r.pools t = some p) :
    r.releaseR t x = ((p.releaseM x).1,
      { r with pools := mapPut r.pools t (p.releaseM x).2 }) := by
  simp only [Registry.releaseR, hget]

theorem expandR_none {r : Registry} {t : String} (n : Nat)
    (hget : mapGet r.pools t = none) :
    r.expandR t n = (none, r) := by
  simp only [Registry.expandR, hget]

theorem expandR_some {r : Registry} {t : String} {p : Pool} (n : Nat)
    (hget : mapGet r.pools t = some p) :
    r.expandR t n = ((p.expandM r.totalPooled (n : Int)).2.1,
      { r with
        pools := mapPut r.pools t (p.expandM r.totalPooled (n : Int)).2.2
        totalPooled := r.totalPooled + (n : Int) }) := by
  simp only [Registry.expandR, hget, Pool.expandM]

theorem mapGet_put_isSome {α β : Type} [DecidableEq α] (m : List (α × β)) (k x : α) (v : β) :
    (mapGet (mapPut m k v) x).isSome = true ↔ (x = k ∨ (mapGet m x).isSome = true) := by
  by_cases hx : x = k
  · subst hx
    rw [mapGet_put_self]
    simp
  · rw [mapGet_put_ne m k x v (fun hh => hx hh.symm)]
    simp [hx]

theorem addM_err {l : LinkedList} {x : Nat} {e : PoolError}
    (h : (l.addM x).1 = some e) :
    e = .duplicateAdd x l.listId ∨ e = .noLast l.listId := by
  have happ : ∀ lp : LinkedList, (lp.appendNode x).1 = some e →
      lp.listId = l.listId → e = .noLast l.listId := by
    intro lp hap hid
    cases hfst : lp.first with
    | none =>
        rw [appendNode_first_none hfst] at hap
        simp at hap
    | some f =>
        cases hlst : lp.last with
        | none =>
            rw [appendNode_no_last hfst hlst] at hap
            simp at hap
            rw [← hap, hid]
        | some L =>
            rw [appendNode_some_some hfst hlst] at hap
            simp at hap
  cases hg : l.getNode x with
  | some n =>
      cases hnf : n.free with
      | false =>
          rw [addM_dup hg hnf] at h
          simp at h
          exact Or.inl h.symm
      | true =>
          rw [addM_eq_append (Or.inr ⟨n, hg, hnf⟩)] at h
          exact Or.inr (happ _ h rfl)
  | none =>
      rw [addM_eq_append (Or.inl hg)] at h
      exact Or.inr (happ _ h rfl)

theorem releaseM_err {p : Pool} {x : Nat} {e : PoolError}
    (h : (Pool.releaseM p x).1 = some e) :
    e = .duplicateAdd x p.freeList.listId ∨ e = .noLast p.freeList.listId := by
  rcases hres : p.freeList.addM x with ⟨e', fl⟩
  cases e' with
  | none =>
      simp only [Pool.releaseM, hres] at h
      simp at h
  | some err =>
      simp only [Pool.releaseM, hres] at h
      simp at h
      subst h
      exact addM_err (by rw [hres])


theorem logCount_append (l1 l2 : List String) (t : String) :
    logCount (l1 ++ l2) t = logCount l1 t + logCount l2 t := by
  simp [logCount, List.filter_append]

theorem logCount_single_self (t : String) : logCount [t] t = 1 := by
  simp [logCount]

theorem logCount_single_ne {t t' : String} (h : ¬ t = t') : logCount [t] t' = 0 := by
  simp [logCount, h]

theorem RInv_start : RInv Registry.start := by
  constructor
  · intro t p h
    simp [Registry.start, mapGet] at h
  · intro t
    simp [Registry.start, mapGet, logCount]

theorem RInv_update_pools {pools : List (String × Pool)} {log : List String}
    (h1 : ∀ t p, mapGet pools t = some p → PWF p)
    (h2 : ∀ t, logCount log t = if (mapGet pools t).isSome then 1 else 0)
    {t0 : String} {pnew : Pool} (hw : PWF pnew) (hex : (mapGet pools t0).isSome = true) :
    (∀ t p, mapGet (mapPut pools t0 pnew) t = some p → PWF p)
    ∧ (∀ t, logCount log t = if (mapGet (mapPut pools t0 pnew) t).isSome then 1 else 0) := by
  constructor
  · intro t p hget
    by_cases ht : t0 = t
    · subst ht
      rw [mapGet_put_self] at hget
      injection hget with hh
      rw [← hh]
      exact hw
    · rw [mapGet_put_ne pools t0 t pnew ht] at hget
      exact h1 t p hget
  · intro t
    by_cases ht : t0 = t
    · subst ht
      rw [mapGet_put_self, h2 t0, hex]
      rfl
    · rw [mapGet_put_ne pools t0 t pnew ht]
      exact h2 t

theorem step_rinv {r : Registry} (op : RegOp) (h : RInv r) :
    RInv (r.step op) ∧ r.totalPooled ≤ (r.step op).totalPooled := by
  obtain ⟨h1, h2⟩ := h
  cases op with
  | rel t x =>
      show RInv (r.releaseR t x).2 ∧ r.totalPooled ≤ (r.releaseR t x).2.totalPooled
      cases hget : mapGet r.pools t with
      | none =>
          rw [releaseR_none x hget]
          exact ⟨⟨h1, h2⟩, le_refl _⟩
      | some p =>
          rw [releaseR_some x hget]
          have hw := releaseM_pwf x (h1 t p hget)
          have hR := RInv_update_pools h1 h2 hw (by rw [hget]; rfl)
          exact ⟨⟨hR.1, hR.2⟩, le_refl _⟩
  | exp t n =>
      show RInv (r.expandR t n).2 ∧ r.totalPooled ≤ (r.expandR t n).2.totalPooled
      cases hget : mapGet r.pools t with
      | none =>
          rw [expandR_none n hget]
          exact ⟨⟨h1, h2⟩, le_refl _⟩
      | some p =>
          rw [expandR_some n hget]
          have hloop := expandLoop_pwf ((n : Int)).toNat p (h1 t p hget)
          have hR := RInv_update_pools h1 h2 hloop.1 (by rw [hget]; rfl)
          refine ⟨⟨hR.1, hR.2⟩, ?_⟩
          have hn : (0 : Int) ≤ (n : Int) := by positivity
          show r.totalPooled ≤ r.totalPooled + (n : Int)
          omega
  | acq t =>
      show RInv (r.acquireR t).2 ∧ r.totalPooled ≤ (r.acquireR t).2.totalPooled
      cases hget : mapGet r.pools t with
      | some p =>
          rw [acquireR_old hget]
          have hacq := @acquireM_pwf r.totalPooled p (h1 t p hget)
          have hR := RInv_update_pools h1 h2 hacq.1 (by rw [hget]; rfl)
          exact ⟨⟨hR.1, hR.2⟩, hacq.2⟩
      | none =>
          rw [acquireR_new hget]
          refine ⟨⟨?_, ?_⟩, ?_⟩
          · intro t' p' hget'
            by_cases ht : t = t'
            · subst ht
              rw [mapGet_put_self] at hget'
              injection hget' with hh
              rw [← hh]
              exact freshAcquired_pwf t
            · rw [mapGet_put_ne _ _ _ _ ht] at hget'
              exact h1 t' p' hget'
          · intro t'
            by_cases ht : t = t'
            · subst ht
              have h0 : logCount r.createdLog t = 0 := by
                rw [h2 t, hget]
                rfl
              rw [mapGet_put_self, logCount_append, h0, logCount_single_self]
              rfl
            · rw [mapGet_put_ne _ _ _ _ ht, logCount_append, logCount_single_ne ht,
                h2 t']
              omega
          · show r.totalPooled ≤ r.totalPooled + 1
            omega

theorem foldl_rinv : ∀ (ops : List RegOp) (r : Registry), RInv r →
    RInv (ops.foldl Registry.step r)
    ∧ r.totalPooled ≤ (ops.foldl Registry.step r).totalPooled := by
  intro ops
  induction ops with
  | nil => intro r h; exact ⟨h, le_refl _⟩
  | cons op rest ih =>
      intro r h
      have hs := step_rinv op h
      have hr := ih (r.step op) hs.1
      exact ⟨hr.1, le_trans hs.2 hr.2⟩

theorem run_rinv (ops : List RegOp) : RInv (Registry.run ops) :=
  (foldl_rinv ops Registry.start RInv_start).1

theorem run_append (ops more : List RegOp) :
    Registry.run (ops ++ more) = more.foldl Registry.step (Registry.run ops) := by
  simp [Registry.run, List.foldl_append]

theorem run_concat (ops : List RegOp) (op : RegOp) :
    Registry.run (ops ++ [op]) = (Registry.run ops).step op := by
  rw [run_append]
  rfl


theorem step_dom_rel (r : Registry) (t' : String) (x : Nat) (t : String) :
    (mapGet (r.step (RegOp.rel t' x)).pools t).isSome = (mapGet r.pools t).isSome := by
  show (mapGet (r.releaseR t' x).2.pools t).isSome = (mapGet r.pools t).isSome
  cases hget : mapGet r.pools t' with
  | none => rw [releaseR_none x hget]
  | some p =>
      rw [releaseR_some x hget]
      by_cases ht : t' = t
      · subst ht
        show (mapGet (mapPut r.pools t' (p.releaseM x).2) t').isSome = _
        rw [mapGet_put_self, hget]
        rfl
      · show (mapGet (mapPut r.pools t' (p.releaseM x).2) t).isSome = _
        rw [mapGet_put_ne _ _ _ _ ht]

theorem step_dom_exp (r : Registry) (t' : String) (n : Nat) (t : String) :
    (mapGet (r.step (RegOp.exp t' n)).pools t).isSome = (mapGet r.pools t).isSome := by
  show (mapGet (r.expandR t' n).2.pools t).isSome = (mapGet r.pools t).isSome
  cases hget : mapGet r.pools t' with
  | none => rw [expandR_none n hget]
  | some p =>
      rw [expandR_some n hget]
      by_cases ht : t' = t
      · subst ht
        show (mapGet (mapPut r.pools t' _) t').isSome = _
        rw [mapGet_put_self, hget]
        rfl
      · show (mapGet (mapPut r.pools t' _) t).isSome = _
        rw [mapGet_put_ne _ _ _ _ ht]

theorem step_dom_acq (r : Registry) (t0 t : String) :
    (mapGet (r.step (RegOp.acq t0)).pools t).isSome = true
      ↔ (t = t0 ∨ (mapGet r.pools t).isSome = true) := by
  show (mapGet (r.acquireR t0).2.pools t).isSome = true ↔ _
  cases hget : mapGet r.pools t0 with
  | none =>
      rw [acquireR_new hget]
      exact mapGet_put_isSome r.pools t0 t (freshAcquired t0)
  | some p =>

      rw [acquireR_old hget]
      show (mapGet (mapPut r.pools t0 _) t).isSome = true ↔ _
      rw [mapGet_put_isSome]

theorem foldl_dom : ∀ (ops : List RegOp) (r : Registry) (t : String),
    (mapGet (ops.foldl Registry.step r).pools t).isSome = true
      ↔ ((mapGet r.pools t).isSome = true ∨ t ∈ acquiredTypes ops) := by
  intro ops
  induction ops with
  | nil =>
      intro r t
      simp [acquiredTypes]
  | cons op rest ih =>
      intro r t
      rw [List.foldl_cons, ih (r.step op) t]
      cases op with
      | acq t0 =>
          rw [step_dom_acq]
          simp only [acquiredTypes, List.mem_cons]
          constructor
          · rintro ((hh | hh) | hh)
            · exact Or.inr (Or.inl hh)
            · exact Or.inl hh
            · exact Or.inr (Or.inr hh)
          · rintro (hh | hh | hh)
            · exact Or.inl (Or.inr hh)
            · exact Or.inl (Or.inl hh)
            · exact Or.inr hh
      | rel t' x =>
          rw [step_dom_rel]
          simp [acquiredTypes]
      | exp t' n =>
          rw [step_dom_exp]
          simp [acquiredTypes]

theorem run_dom (ops : List RegOp) (t : String) :
    (mapGet (Registry.run ops).pools t).isSome = true ↔ t ∈ acquiredTypes ops := by
  rw [Registry.run, foldl_dom]
  simp [Registry.start, mapGet]


/-! ### Further support lemmas for the claim theorems -/

theorem addM_ok_of_lastOk {l : LinkedList} {x : Nat}
    (hfree : l.getNode x = none ∨ ∃ n, l.getNode x = some n ∧ n.free = true)
    (hok : l.first = none ∨ l.last ≠ none) : (l.addM x).1 = none := by
  rw [addM_eq_append hfree]
  set lp : LinkedList := { l with
    objToNodeMap := mapPut l.objToNodeMap x ⟨x, none, none, false⟩ } with hlp
  have hf : lp.first = l.first := rfl
  have hl : lp.last = l.last := rfl
  cases hfst : lp.first with
  | none => rw [appendNode_first_none hfst]
  | some f =>
      have hlast : lp.last ≠ none := by
        rw [hl]
        rcases hok with hok | hok
        · rw [hf, hok] at hfst
          exact absurd hfst (by simp)
        · exact hok
      cases hlst : lp.last with
      | none => exact absurd hlst hlast
      | some L => rw [appendNode_some_some hfst hlst]

theorem addM_keys_reuse {l : LinkedList} {x : Nat} {n : Node}
    (hg : l.getNode x = some n) (hf : n.free = true) :
    (l.addM x).2.objToNodeMap.map Prod.fst = l.objToNodeMap.map Prod.fst := by
  have hxk : x ∈ l.objToNodeMap.map Prod.fst := by
    rw [← mapGet_isSome_iff]
    show (l.getNode x).isSome = true
    rw [hg]
    rfl
  have hk0 : (mapPut l.objToNodeMap x ⟨x, none, none, false⟩).map Prod.fst
      = l.objToNodeMap.map Prod.fst := keys_mapPut_mem _ _ _ hxk
  rw [addM_eq_append (Or.inr ⟨n, hg, hf⟩)]
  set lp : LinkedList := { l with
    objToNodeMap := mapPut l.objToNodeMap x ⟨x, none, none, false⟩ } with hlp
  have hmap : lp.objToNodeMap = mapPut l.objToNodeMap x ⟨x, none, none, false⟩ := rfl
  cases hfst : lp.first with
  | none =>
      rw [appendNode_first_none hfst]
      show (mapPut lp.objToNodeMap x ⟨x, none, none, false⟩).map Prod.fst = _
      rw [hmap, mapPut_put_same, hk0]
  | some f =>
      cases hlst : lp.last with
      | none =>
          rw [appendNode_no_last hfst hlst]
          show lp.objToNodeMap.map Prod.fst = _
          rw [hmap, hk0]
      | some L =>
          rw [appendNode_some_some hfst hlst]
          show (mapPut (mapUpdate lp.objToNodeMap L
            (fun nd => { nd with nextLinked := some x })) x
            ⟨x, none, some L, false⟩).map Prod.fst = _
          rw [keys_mapPut_mem, keys_mapUpdate, hmap, hk0]
          rw [keys_mapUpdate, hmap, hk0]
          exact hxk

theorem addM_keys_new {l : LinkedList} {x : Nat} (hg : l.getNode x = none) :
    (l.addM x).2.objToNodeMap.map Prod.fst = l.objToNodeMap.map Prod.fst ++ [x] := by
  have hxk : x ∉ l.objToNodeMap.map Prod.fst := by
    rw [← mapGet_isSome_iff]
    show ¬ (l.getNode x).isSome = true
    rw [hg]
    simp
  have hk0 : (mapPut l.objToNodeMap x ⟨x, none, none, false⟩).map Prod.fst
      = l.objToNodeMap.map Prod.fst ++ [x] := keys_mapPut_not_mem _ _ _ hxk
  have hxk2 : x ∈ (mapPut l.objToNodeMap x ⟨x, none, none, false⟩).map Prod.fst :=
    mem_keys_put_self _ _ _
  rw [addM_eq_append (Or.inl hg)]
  set lp : LinkedList := { l with
    objToNodeMap := mapPut l.objToNodeMap x ⟨x, none, none, false⟩ } with hlp
  have hmap : lp.objToNodeMap = mapPut l.objToNodeMap x ⟨x, none, none, false⟩ := rfl
  cases hfst : lp.first with
  | none =>
      rw [appendNode_first_none hfst]
      show (mapPut lp.objToNodeMap x ⟨x, none, none, false⟩).map Prod.fst = _
      rw [hmap, mapPut_put_same, hk0]
  | some f =>
      cases hlst : lp.last with
      | none =>
          rw [appendNode_no_last hfst hlst]
          show lp.objToNodeMap.map Prod.fst = _
          rw [hmap, hk0]
      | some L =>
          rw [appendNode_some_some hfst hlst]
          show (mapPut (mapUpdate lp.objToNodeMap L
            (fun nd => { nd with nextLinked := some x })) x
            ⟨x, none, some L, false⟩).map Prod.fst = _
          rw [keys_mapPut_mem, keys_mapUpdate, hmap, hk0]
          rw [keys_mapUpdate, hmap]
          exact hxk2

theorem releaseM_ok_eq {p : Pool} {x : Nat} {fl : LinkedList}
    (h : p.freeList.addM x = (none, fl)) :
    Pool.releaseM p x = (none,
      { p with
        freeList := fl
        usedList := (p.usedList.remove x).2
        destroyedMap := mapPut p.destroyedMap x true }) := by
  simp [Pool.releaseM, h]

theorem has_eq_false_of_not_mem {l : LinkedList} {s : List Nat} {x : Nat}
    (h : WFL l s) (hx : x ∉ s) : l.has x = false := by
  rcases WFL_not_mem h hx with hg | ⟨n, hg, hf⟩
  · simp [LinkedList.has, hg]
  · simp [LinkedList.has, hg, hf]


/-! ### The claims -/

/-- C2 counterexample: double-release IS detected. Releasing the same
object a second time, when it is already back on the free list, raises
the duplicate-add error (the claim says no error is raised) and leaves
the pool exactly as it was (no corruption). -/
theorem spec_C2_counterexample :
    (Pool.releaseM scenarioAcquired 0).1 = none
    ∧ (Pool.releaseM scenarioReleased 0).1 = some (PoolError.duplicateAdd 0 0)
    ∧ (Pool.releaseM scenarioReleased 0).2 = scenarioReleased := by
  decide

/-- C2 (amended): for every pool, releasing an object a second time after
a release of it succeeded raises the free list's duplicate-add error and
leaves the pool state unchanged — double release is detected, and it does
not corrupt the lists. -/
theorem spec_C2_amended (p : Pool) (x : Nat) (p' : Pool)
    (h : Pool.releaseM p x = (none, p')) :
    Pool.releaseM p' x = (some (PoolError.duplicateAdd x p.freeList.listId), p') := by
  obtain ⟨n, hg, hnf, hid⟩ := releaseM_ok_node h
  rw [releaseM_dup hg hnf, hid]

/-- Witness for the amended C2 at a concrete double-release. -/
theorem spec_C2_witness :
    Pool.releaseM scenarioReleased 0
      = (some (PoolError.duplicateAdd 0 0), scenarioReleased) :=
  spec_C2_amended scenarioAcquired 0 scenarioReleased (by decide)

/-- C4: evaluating moveUp on the middle element of the three-element list
[1, 2, 3]. The forward links afterwards read [2, 1, 3] (the swap), but
node 3's backward link still points at node 2 — the code never updates the
old successor's prevLinked, so the backward links do not describe the
transposed list (they should give node 3 the predecessor 1). -/
theorem spec_C4_eval :
    (l123.moveUp 2).map (fun lr =>
      (lr.first, lr.last,
        (lr.getNode 2).map Node.nextLinked,
        (lr.getNode 1).map Node.nextLinked,
        (lr.getNode 3).map Node.prevLinked))
      = Except.ok (some 2, some 3, some (some 1), some (some 3), some (some 2)) := by
  rfl

/-- C9: if Pool.release is invoked while the object is already a live
member of the free list, the call throws the duplicate-add error before
performing any mutation: the resulting state is exactly the input pool
(free list, used list, counts and destroyed flags all unchanged). -/
theorem spec_C9 (p : Pool) (x : Nat) (n : Node)
    (hg : p.freeList.getNode x = some n) (hnf : n.free = false) :
    (Pool.releaseM p x).1 = some (PoolError.duplicateAdd x p.freeList.listId)
    ∧ (Pool.releaseM p x).2 = p := by
  rw [releaseM_dup hg hnf]
  exact ⟨rfl, rfl⟩

/-- Witness for C9 at a concrete pool whose object 0 sits on the free list. -/
theorem spec_C9_witness :
    (Pool.releaseM scenarioReleased 0).1 = some (PoolError.duplicateAdd 0 0)
    ∧ (Pool.releaseM scenarioReleased 0).2 = scenarioReleased :=
  spec_C9 scenarioReleased 0 ⟨0, none, none, false⟩ (by decide) (by decide)

/-- C10: releasing an object the pool never handed out (it is live on
neither list) raises no error: the object is appended to the free list,
the used-list removal is a no-op, its destroyed flag becomes true, and
size() grows by one — the pool silently adopts the object. -/
theorem spec_C10 (p : Pool) (x : Nat)
    (hfree : p.freeList.has x = false)
    (hok : p.freeList.first = none ∨ p.freeList.last ≠ none)
    (hused : p.usedList.has x = false) :
    (Pool.releaseM p x).1 = none
    ∧ (Pool.releaseM p x).2.usedList = p.usedList
    ∧ (Pool.releaseM p x).2.freeList.count = p.freeList.count + 1
    ∧ (Pool.releaseM p x).2.freeList.last = some x
    ∧ (Pool.releaseM p x).2.destroyed x = true
    ∧ Pool.size (Pool.releaseM p x).2 = p.size + 1 := by
  have hcases : ∀ l : LinkedList, l.has x = false →
      l.getNode x = none ∨ ∃ n, l.getNode x = some n ∧ n.free = true := by
    intro l hl
    cases hg : l.getNode x with
    | none => exact Or.inl rfl
    | some n =>
        refine Or.inr ⟨n, rfl, ?_⟩
        simp [LinkedList.has, hg] at hl
        exact hl
  have hadd1 : (p.freeList.addM x).1 = none :=
    addM_ok_of_lastOk (hcases p.freeList hfree) hok
  have hpair : p.freeList.addM x = (none, (p.freeList.addM x).2) := by
    rw [← hadd1]
  obtain ⟨nn, _, _, hcount, hlast, _⟩ := addM_ok_node hadd1
  have hrm : p.usedList.remove x = (false, p.usedList) := by
    rcases hcases p.usedList hused with hgu | ⟨n, hgu, hfu⟩
    · exact remove_none hgu
    · exact remove_free hgu hfu
  rw [releaseM_ok_eq hpair]
  refine ⟨rfl, ?_, hcount, hlast, ?_, ?_⟩
  · show (p.usedList.remove x).2 = p.usedList
    rw [hrm]
  · show (mapGet (mapPut p.destroyedMap x true) x).getD false = true
    rw [mapGet_put_self]
    rfl
  · show (p.freeList.addM x).2.count + (p.usedList.remove x).2.count
      = p.freeList.count + p.usedList.count + 1
    rw [hcount, hrm]
    ring

/-- Witness for C10: the pool of the scenario adopts the foreign object 5. -/
theorem spec_C10_witness :
    (Pool.releaseM scenarioAcquired 5).1 = none
    ∧ (Pool.releaseM scenarioAcquired 5).2.usedList = scenarioAcquired.usedList
    ∧ (Pool.releaseM scenarioAcquired 5).2.freeList.count
        = scenarioAcquired.freeList.count + 1
    ∧ (Pool.releaseM scenarioAcquired 5).2.freeList.last = some 5
    ∧ (Pool.releaseM scenarioAcquired 5).2.destroyed 5 = true
    ∧ Pool.size (Pool.releaseM scenarioAcquired 5).2 = Pool.size scenarioAcquired + 1 :=
  spec_C10 scenarioAcquired 5 (by decide) (by decide) (by decide)


/-- C5: add(obj) on a keyed node list. If obj's cached node is a live
member, add fails with the duplicate-add error carrying the object id and
the list id and changes nothing. If the cached node is free it is
reinitialised and reused (the map's key set does not grow); if there is no
cached node a fresh one is created (the key set gains exactly obj's key).
In both non-error cases the node becomes the new tail and count grows by
one. The list must satisfy the internal last-pointer invariant (a
non-empty list has a last), which every well-formed list does. -/
theorem spec_C5 (l : LinkedList) (x : Nat) (hok : l.first = none ∨ l.last ≠ none) :
    (∀ n, l.getNode x = some n → n.free = false →
        l.addM x = (some (PoolError.duplicateAdd x l.listId), l))
    ∧ (∀ n, l.getNode x = some n → n.free = true →
        (l.addM x).1 = none
        ∧ (l.addM x).2.objToNodeMap.map Prod.fst = l.objToNodeMap.map Prod.fst
        ∧ (l.addM x).2.last = some x
        ∧ (l.addM x).2.count = l.count + 1
        ∧ ∃ nn, (l.addM x).2.getNode x = some nn ∧ nn.free = false)
    ∧ (l.getNode x = none →
        (l.addM x).1 = none
        ∧ (l.addM x).2.objToNodeMap.map Prod.fst = l.objToNodeMap.map Prod.fst ++ [x]
        ∧ (l.addM x).2.last = some x
        ∧ (l.addM x).2.count = l.count + 1) := by
  refine ⟨?_, ?_, ?_⟩
  · intro n hg hnf
    exact addM_dup hg hnf
  · intro n hg hnf
    have h1 : (l.addM x).1 = none := addM_ok_of_lastOk (Or.inr ⟨n, hg, hnf⟩) hok
    obtain ⟨nn, hget, hfree, hcount, hlast, _⟩ := addM_ok_node h1
    exact ⟨h1, addM_keys_reuse hg hnf, hlast, hcount, nn, hget, hfree⟩
  · intro hg
    have h1 : (l.addM x).1 = none := addM_ok_of_lastOk (Or.inl hg) hok
    obtain ⟨nn, hget, hfree, hcount, hlast, _⟩ := addM_ok_node h1
    exact ⟨h1, addM_keys_new hg, hlast, hcount⟩

/-- Witness for C5: on the list [1, 2, 3] adding 2 again throws the
duplicate-add error; after removing 2 its cached node is free and is
reused; adding the unseen 9 creates a fresh node whose key is appended. -/
theorem spec_C5_witness :
    l123.addM 2 = (some (PoolError.duplicateAdd 2 7), l123)
    ∧ (((l123.remove 2).2.addM 2).1 = none
        ∧ ((l123.remove 2).2.addM 2).2.objToNodeMap.map Prod.fst
            = (l123.remove 2).2.objToNodeMap.map Prod.fst
        ∧ ((l123.remove 2).2.addM 2).2.last = some 2
        ∧ ((l123.remove 2).2.addM 2).2.count = (l123.remove 2).2.count + 1
        ∧ ∃ nn, ((l123.remove 2).2.addM 2).2.getNode 2 = some nn ∧ nn.free = false)
    ∧ ((l123.addM 9).1 = none
        ∧ (l123.addM 9).2.objToNodeMap.map Prod.fst
            = l123.objToNodeMap.map Prod.fst ++ [9]
        ∧ (l123.addM 9).2.last = some 9
        ∧ (l123.addM 9).2.count = l123.count + 1) := by
  refine ⟨?_, ?_, ?_⟩
  · exact (spec_C5 l123 2 (Or.inr (by decide))).1 ⟨2, some 3, some 1, false⟩
      (by decide) (by decide)
  · exact (spec_C5 (l123.remove 2).2 2 (Or.inr (by decide))).2.1 ⟨2, none, none, true⟩
      (by decide) (by decide)
  · exact (spec_C5 l123 9 (Or.inr (by decide))).2.2 (by decide)


/-- C6: remove(obj) on a keyed node list. With no cached node, or a node
already marked free, it is a no-op returning false. Otherwise it returns
true, decrements count, marks obj's node free (clearing its links), makes
has(obj) false, relinks the two neighbours around the node, and fixes
first/last exactly when the node was first/last. Consequently add
immediately followed by remove restores count and makes has(obj) false. -/
theorem spec_C6 (l : LinkedList) (x : Nat) :
    ((l.getNode x = none → l.remove x = (false, l))
      ∧ (∀ n, l.getNode x = some n → n.free = true → l.remove x = (false, l)))
    ∧ (∀ n, l.getNode x = some n → n.free = false →
        (l.remove x).1 = true
        ∧ (l.remove x).2.count = l.count - 1
        ∧ (l.remove x).2.getNode x = some ⟨n.obj, none, none, true⟩
        ∧ (l.remove x).2.has x = false
        ∧ (n.prevLinked = none → (l.remove x).2.first = n.nextLinked)
        ∧ (n.prevLinked ≠ none → (l.remove x).2.first = l.first)
        ∧ (n.nextLinked = none → (l.remove x).2.last = n.prevLinked)
        ∧ (n.nextLinked ≠ none → (l.remove x).2.last = l.last)
        ∧ (∀ pp, n.prevLinked = some pp → pp ≠ x → n.nextLinked ≠ some pp →
            mapGet (l.remove x).2.objToNodeMap pp
              = (mapGet l.objToNodeMap pp).map
                  (fun nd => { nd with nextLinked := n.nextLinked }))
        ∧ (∀ qq, n.nextLinked = some qq → qq ≠ x → n.prevLinked ≠ some qq →
            mapGet (l.remove x).2.objToNodeMap qq
              = (mapGet l.objToNodeMap qq).map
                  (fun nd => { nd with prevLinked := n.prevLinked })))
    ∧ (∀ l2, l.addM x = (none, l2) →
        (l2.remove x).1 = true
        ∧ (l2.remove x).2.count = l.count
        ∧ (l2.remove x).2.has x = false) := by
  refine ⟨⟨?_, ?_⟩, ?_, ?_⟩
  · intro hg
    exact remove_none hg
  · intro n hg hnf
    exact remove_free hg hnf
  · intro n hg hnf
    rw [remove_live hg hnf]
    refine ⟨rfl, rfl, ?_, ?_, ?_, ?_, ?_, ?_, ?_, ?_⟩
    · show mapGet (mapPut (unlinkMaps l.objToNodeMap n.prevLinked n.nextLinked) x
        ⟨n.obj, none, none, true⟩) x = some ⟨n.obj, none, none, true⟩
      rw [mapGet_put_self]
    · show LinkedList.has _ x = false
      simp only [LinkedList.has, LinkedList.getNode]
      show (match mapGet (mapPut (unlinkMaps l.objToNodeMap n.prevLinked n.nextLinked) x
        ⟨n.obj, none, none, true⟩) x with
        | none => false
        | some nd => !nd.free) = false
      rw [mapGet_put_self]; rfl
    · intro hP
      show (if n.prevLinked = none then n.nextLinked else l.first) = n.nextLinked
      rw [if_pos hP]
    · intro hP
      show (if n.prevLinked = none then n.nextLinked else l.first) = l.first
      rw [if_neg hP]
    · intro hQ
      show (if n.nextLinked = none then n.prevLinked else l.last) = n.prevLinked
      rw [if_pos hQ]
    · intro hQ
      show (if n.nextLinked = none then n.prevLinked else l.last) = l.last
      rw [if_neg hQ]
    · intro pp hpp hppx hppq
      show mapGet (mapPut (unlinkMaps l.objToNodeMap n.prevLinked n.nextLinked) x
        ⟨n.obj, none, none, true⟩) pp
        = (mapGet l.objToNodeMap pp).map (fun nd => { nd with nextLinked := n.nextLinked })
      rw [mapGet_put_ne _ x pp _ (fun hh => hppx hh.symm), hpp]
      cases hQ : n.nextLinked with
      | none =>
          show mapGet (mapUpdate l.objToNodeMap pp
            (fun nd => { nd with nextLinked := none })) pp
            = (mapGet l.objToNodeMap pp).map (fun nd => { nd with nextLinked := none })
          rw [mapGet_update, if_pos rfl]
      | some qq =>
          have hqq : ¬ pp = qq := fun hh => hppq (by rw [hQ, hh])
          show mapGet (mapUpdate (mapUpdate l.objToNodeMap pp
              (fun nd => { nd with nextLinked := some qq })) qq
              (fun nd => { nd with prevLinked := some pp })) pp
            = (mapGet l.objToNodeMap pp).map (fun nd => { nd with nextLinked := some qq })
          rw [mapGet_update, if_neg hqq, mapGet_update, if_pos rfl]
    · intro qq hqq hqqx hqqp
      show mapGet (mapPut (unlinkMaps l.objToNodeMap n.prevLinked n.nextLinked) x
        ⟨n.obj, none, none, true⟩) qq
        = (mapGet l.objToNodeMap qq).map (fun nd => { nd with prevLinked := n.prevLinked })
      rw [mapGet_put_ne _ x qq _ (fun hh => hqqx hh.symm), hqq]
      cases hP : n.prevLinked with
      | none =>
          show mapGet (mapUpdate l.objToNodeMap qq
            (fun nd => { nd with prevLinked := none })) qq
            = (mapGet l.objToNodeMap qq).map (fun nd => { nd with prevLinked := none })
          rw [mapGet_update, if_pos rfl]
      | some pp =>
          have hpp2 : ¬ qq = pp := fun hh => hqqp (by rw [hP, hh])
          show mapGet (mapUpdate (mapUpdate l.objToNodeMap pp
              (fun nd => { nd with nextLinked := some qq })) qq
              (fun nd => { nd with prevLinked := some pp })) qq
            = (mapGet l.objToNodeMap qq).map (fun nd => { nd with prevLinked := some pp })
          rw [mapGet_update, if_pos rfl, mapGet_update, if_neg hpp2]
  · intro l2 hadd
    have h1 : (l.addM x).1 = none := by rw [hadd]
    have h2 : (l.addM x).2 = l2 := by rw [hadd]
    obtain ⟨nn, hga, hnfa, hcnt, _, _⟩ := addM_ok_node h1
    rw [h2] at hga hcnt
    rw [remove_live hga hnfa]
    refine ⟨rfl, ?_, ?_⟩
    · show l2.count - 1 = l.count
      rw [hcnt]
      ring
    · show LinkedList.has _ x = false
      simp only [LinkedList.has, LinkedList.getNode]
      show (match mapGet (mapPut (unlinkMaps l2.objToNodeMap nn.prevLinked nn.nextLinked) x
        ⟨nn.obj, none, none, true⟩) x with
        | none => false
        | some nd => !nd.free) = false
      rw [mapGet_put_self]; rfl

/-- Witness for C6: removal on concrete lists — removing 2 from [1, 2, 3]
succeeds and relinks 1 and 3; removing the absent 9 is a no-op; add of 9
followed by remove of 9 restores the count and has(9) is false. -/
theorem spec_C6_witness :
    l123.remove 9 = (false, l123)
    ∧ ((l123.remove 2).1 = true
        ∧ (l123.remove 2).2.count = l123.count - 1
        ∧ (l123.remove 2).2.getNode 2 = some ⟨2, none, none, true⟩
        ∧ (l123.remove 2).2.has 2 = false)
    ∧ (((l123.addM 9).2.remove 9).1 = true
        ∧ ((l123.addM 9).2.remove 9).2.count = l123.count
        ∧ ((l123.addM 9).2.remove 9).2.has 9 = false) := by
  refine ⟨?_, ?_, ?_⟩
  · exact (spec_C6 l123 9).1.1 (by decide)
  · have h := (spec_C6 l123 2).2.1 ⟨2, some 3, some 1, false⟩ (by decide) (by decide)
    exact ⟨h.1, h.2.1, h.2.2.1, h.2.2.2.1⟩
  · exact (spec_C6 l123 9).2.2 (l123.addM 9).2 (by decide)


/-- C3 counterexample: the round-trip does NOT preserve size() for every
pool state. On a pool whose free list is empty (here: the fresh pool
after its first acquire), acquire auto-expands first, so release(acquire())
grows size() from 1 to 2 and the free-list count from 0 to 1. -/
theorem spec_C3_counterexample :
    scenarioAcquired.freeList.count = 0
    ∧ Pool.size scenarioAcquired = 1
    ∧ ((Pool.acquireM 1 scenarioAcquired).2.1).toOption = some 1
    ∧ Pool.size (Pool.releaseM (Pool.acquireM 1 scenarioAcquired).2.2 1).2 = 2
    ∧ (Pool.releaseM (Pool.acquireM 1 scenarioAcquired).2.2 1).2.freeList.count = 1 := by
  decide

/-- C3 amended: on a pool whose free list is non-empty (both lists well
formed, the head object not on the used list), acquire() hands out the
free head h with no expansion and release(h) then restores the free-list
count, the used-list count and hence size() to their pre-acquire values. -/
theorem spec_C3_amended {tp : Int} {p : Pool} {h : Nat} {rest u : List Nat}
    (hfree : WFL p.freeList (h :: rest)) (hused : WFL p.usedList u) (hu : h ∉ u) :
    (Pool.acquireM tp p).2.1 = Except.ok h
    ∧ (Pool.releaseM (Pool.acquireM tp p).2.2 h).1 = none
    ∧ (Pool.releaseM (Pool.acquireM tp p).2.2 h).2.freeList.count = p.freeList.count
    ∧ (Pool.releaseM (Pool.acquireM tp p).2.2 h).2.usedList.count = p.usedList.count
    ∧ Pool.size (Pool.releaseM (Pool.acquireM tp p).2.2 h).2 = Pool.size p := by
  have hfst : p.freeList.first = some h := by
    rw [hfree.2.1]
    rfl
  have hne : ¬ p.freeList.first = none := by
    rw [hfst]
    simp
  have hacq : Pool.acquireM tp p = Pool.acquireTake tp p := by
    simp only [Pool.acquireM, if_neg hne]
  have htake := @acquireTake_wfl tp p h rest u hfree hused hu
  rw [hacq]
  set q : Pool := (Pool.acquireTake tp p).2.2 with hq
  have hnr : h ∉ rest := (List.nodup_cons.mp hfree.2.2.2.2.1).1
  obtain ⟨ha1, ha2, ha3⟩ := addM_ok_of_not_mem htake.2.2.1 hnr
  have haddeq : q.freeList.addM h = (none, (q.freeList.addM h).2) := by
    rw [← ha1]
  obtain ⟨hr1, hr2, hr3⟩ := @remove_mem_wfl q.usedList (u ++ [h]) h htake.2.2.2.1 (by simp)
  have herase : (u ++ [h]).erase h = u := by
    rw [List.erase_append_right _ hu, List.erase_cons_head]
    simp
  rw [herase] at hr3
  have hc1 : (q.freeList.addM h).2.count = p.freeList.count := by
    rw [ha3.2.2.2.1, hfree.2.2.2.1]
    simp
  have hc2 : ((q.usedList.remove h).2).count = p.usedList.count := by
    rw [hr3.2.2.2.1, hused.2.2.2.1]
  refine ⟨htake.2.1, ?_, ?_, ?_, ?_⟩
  · rw [releaseM_ok_eq haddeq]
  · rw [releaseM_ok_eq haddeq]
    exact hc1
  · rw [releaseM_ok_eq haddeq]
    exact hc2
  · rw [releaseM_ok_eq haddeq]
    show (q.freeList.addM h).2.count + ((q.usedList.remove h).2).count
      = p.freeList.count + p.usedList.count
    rw [hc1, hc2]

/-- Witness for C3 amended: on the concrete pool whose single instance is
back on the free list after a full acquire/release cycle, a further
acquire/release round-trip returns object 0 and restores both counts. -/
theorem spec_C3_witness :
    (WFL scenarioReleased.freeList (0 :: []) ∧ WFL scenarioReleased.usedList []
      ∧ (0 : Nat) ∉ ([] : List Nat))
    ∧ ((Pool.acquireM 5 scenarioReleased).2.1 = Except.ok 0
      ∧ (Pool.releaseM (Pool.acquireM 5 scenarioReleased).2.2 0).1 = none
      ∧ (Pool.releaseM (Pool.acquireM 5 scenarioReleased).2.2 0).2.freeList.count
          = scenarioReleased.freeList.count
      ∧ (Pool.releaseM (Pool.acquireM 5 scenarioReleased).2.2 0).2.usedList.count
          = scenarioReleased.usedList.count
      ∧ Pool.size (Pool.releaseM (Pool.acquireM 5 scenarioReleased).2.2 0).2
          = Pool.size scenarioReleased) :=
  ⟨⟨by decide, by decide, by decide⟩,
    @spec_C3_amended 5 scenarioReleased 0 [] [] (by decide) (by decide) (by decide)⟩


/-- C1: acquire() on a pool with an empty (well-formed) free list, the
used list well formed over u with ids below the instance counter. The
expansion amount round(size()/5)+1 is at least 1; acquire equals one
expand by that amount followed by the take step; the expansion leaves the
free list non-empty, headed by the first fresh instance; the take then
returns that head, removes it from the free list, appends it to the used
list (new tail, count + 1) and clears its destroyed flag. -/
theorem spec_C1 (tp : Int) (p : Pool) (u : List Nat)
    (hfree : WFL p.freeList []) (hused : WFL p.usedList u)
    (hb : ∀ y ∈ u, y < p.nextId) :
    1 ≤ jsRoundDiv5 p.size + 1
    ∧ Pool.acquireM tp p
        = Pool.acquireTake (tp + (jsRoundDiv5 p.size + 1))
            (Pool.expandLoop (jsRoundDiv5 p.size + 1).toNat p).2
    ∧ (Pool.expandLoop (jsRoundDiv5 p.size + 1).toNat p).2.freeList.first = some p.nextId
    ∧ (Pool.acquireM tp p).1 = tp + (jsRoundDiv5 p.size + 1)
    ∧ (Pool.acquireM tp p).2.1 = Except.ok p.nextId
    ∧ (Pool.acquireM tp p).2.2.freeList.has p.nextId = false
    ∧ (Pool.acquireM tp p).2.2.usedList.last = some p.nextId
    ∧ (Pool.acquireM tp p).2.2.usedList.count = p.usedList.count + 1
    ∧ (Pool.acquireM tp p).2.2.destroyed p.nextId = false := by
  have hsz : 0 ≤ p.size := by
    show 0 ≤ p.freeList.count + p.usedList.count
    rw [hfree.2.2.2.1, hused.2.2.2.1]
    positivity
  have hk : 1 ≤ jsRoundDiv5 p.size + 1 := jsRoundDiv5_pos hsz
  have hfst0 : p.freeList.first = none := by
    rw [hfree.2.1]
    rfl
  have hexp := expandLoop_fresh (jsRoundDiv5 p.size + 1).toNat p [] hfree
    (by intro y hy; simp at hy)
  obtain ⟨hv1, hv2, hv3, hv4, hv5, hv6, hv7⟩ := hexp
  obtain ⟨j, hj⟩ : ∃ j, (jsRoundDiv5 p.size + 1).toNat = j + 1 :=
    ⟨(jsRoundDiv5 p.size + 1).toNat - 1, by omega⟩
  have hlist : (List.range (jsRoundDiv5 p.size + 1).toNat).map (fun i => p.nextId + i)
      = p.nextId :: (List.range j).map (fun i => p.nextId + 1 + i) := by
    rw [hj, List.range_succ_eq_map, List.map_cons, List.map_map]
    refine congrArg₂ _ (by simp) ?_
    refine List.map_congr_left ?_
    intro i hi
    show p.nextId + (i + 1) = p.nextId + 1 + i
    omega
  rw [List.nil_append, hlist] at hv2
  have hucount : p.usedList.count = (u.length : Int) := hused.2.2.2.1
  rw [← hv5] at hused
  have hbu : p.nextId ∉ u := fun hmem => absurd (hb p.nextId hmem) (by omega)
  have htake := @acquireTake_wfl (tp + (jsRoundDiv5 p.size + 1))
    (Pool.expandLoop (jsRoundDiv5 p.size + 1).toNat p).2 p.nextId
    ((List.range j).map (fun i => p.nextId + 1 + i)) u hv2 hused hbu
  have hloopeq : Pool.expandLoop (jsRoundDiv5 p.size + 1).toNat p
      = (none, (Pool.expandLoop (jsRoundDiv5 p.size + 1).toNat p).2) := by
    rw [← hv1]
  have hacq : Pool.acquireM tp p
      = Pool.acquireTake (tp + (jsRoundDiv5 p.size + 1))
          (Pool.expandLoop (jsRoundDiv5 p.size + 1).toNat p).2 := by
    simp only [Pool.acquireM, if_pos hfst0, Pool.expandM]
    rw [hloopeq]
  refine ⟨hk, hacq, ?_, ?_, ?_, ?_, ?_, ?_, ?_⟩
  · rw [hv2.2.1]
    rfl
  · rw [hacq, htake.1]
  · rw [hacq]
    exact htake.2.1
  · rw [hacq]
    refine has_eq_false_of_not_mem htake.2.2.1 ?_
    intro hmem
    simp only [List.mem_map, List.mem_range] at hmem
    obtain ⟨i, _, hie⟩ := hmem
    omega
  · rw [hacq, htake.2.2.2.1.2.2.1]
    rw [getLast?_append_cons u p.nextId []]
    rfl
  · rw [hacq, htake.2.2.2.1.2.2.2.1, hucount, List.length_append]
    simp only [List.length_singleton]
    push_cast
    ring
  · rw [hacq]
    exact htake.2.2.2.2.1

/-- Witness for C1: the first acquire on the concrete one-instance pool
whose free list has been drained (sole instance 0 on the used list)
expands by round(1/5)+1 = 1, creating instance 1, and hands it out. -/
theorem spec_C1_witness :
    (WFL scenarioAcquired.freeList [] ∧ WFL scenarioAcquired.usedList [0]
      ∧ ∀ y ∈ [0], y < scenarioAcquired.nextId)
    ∧ (1 ≤ jsRoundDiv5 scenarioAcquired.size + 1
      ∧ Pool.acquireM 1 scenarioAcquired
          = Pool.acquireTake (1 + (jsRoundDiv5 scenarioAcquired.size + 1))
              (Pool.expandLoop (jsRoundDiv5 scenarioAcquired.size + 1).toNat scenarioAcquired).2
      ∧ (Pool.expandLoop (jsRoundDiv5 scenarioAcquired.size + 1).toNat
          scenarioAcquired).2.freeList.first = some scenarioAcquired.nextId
      ∧ (Pool.acquireM 1 scenarioAcquired).1 = 1 + (jsRoundDiv5 scenarioAcquired.size + 1)
      ∧ (Pool.acquireM 1 scenarioAcquired).2.1 = Except.ok scenarioAcquired.nextId
      ∧ (Pool.acquireM 1 scenarioAcquired).2.2.freeList.has scenarioAcquired.nextId = false
      ∧ (Pool.acquireM 1 scenarioAcquired).2.2.usedList.last = some scenarioAcquired.nextId
      ∧ (Pool.acquireM 1 scenarioAcquired).2.2.usedList.count
          = scenarioAcquired.usedList.count + 1
      ∧ (Pool.acquireM 1 scenarioAcquired).2.2.destroyed scenarioAcquired.nextId = false) :=
  ⟨⟨by decide, by decide, by decide⟩,
    spec_C1 1 scenarioAcquired [0] (by decide) (by decide) (by decide)⟩


/-- C7: over every operation sequence, a pool exists for a type exactly
when that type was passed to acquire; the construction log holds exactly
one entry per registered type (at most one pool per type); a first
acquire of a type lazily creates its pool with INITIAL_POOL_SIZE
instances and logs it once, while an acquire of a known type reuses the
registered pool and creates nothing; totalPooled never decreases across
any continuation of a run, and expand(n) on a registered pool increases
it by exactly n. -/
theorem spec_C7 :
    (∀ ops t, (mapGet (Registry.run ops).pools t).isSome = true ↔ t ∈ acquiredTypes ops)
    ∧ (∀ ops t, logCount (Registry.run ops).createdLog t
        = if (mapGet (Registry.run ops).pools t).isSome then 1 else 0)
    ∧ (∀ (r : Registry) (t : String), mapGet r.pools t = none →
        mapGet (r.acquireR t).2.pools t = some (freshAcquired t)
        ∧ (r.acquireR t).2.createdLog = r.createdLog ++ [t]
        ∧ (freshAcquired t).initialSize = INITIAL_POOL_SIZE)
    ∧ (∀ (r : Registry) (t : String) (p : Pool), mapGet r.pools t = some p →
        (r.acquireR t).2.pools = mapPut r.pools t (p.acquireM r.totalPooled).2.2
        ∧ (r.acquireR t).2.createdLog = r.createdLog)
    ∧ (∀ ops more, (Registry.run ops).totalPooled ≤ (Registry.run (ops ++ more)).totalPooled)
    ∧ (∀ (r : Registry) (t : String) (p : Pool) (n : Nat), mapGet r.pools t = some p →
        (r.expandR t n).2.totalPooled = r.totalPooled + (n : Int)) := by
  refine ⟨?_, ?_, ?_, ?_, ?_, ?_⟩
  · intro ops t
    exact run_dom ops t
  · intro ops t
    exact (run_rinv ops).2 t
  · intro r t hget
    rw [acquireR_new hget]
    exact ⟨mapGet_put_self r.pools t (freshAcquired t), rfl, rfl⟩
  · intro r t p hget
    rw [acquireR_old hget]
    exact ⟨rfl, rfl⟩
  · intro ops more
    rw [run_append]
    exact (foldl_rinv more (Registry.run ops) (run_rinv ops)).2
  · intro r t p n hget
    rw [expandR_some n hget]

/-- Witness for C7 at concrete registries: the first acquire of "Point"
from the initial registry creates and logs its pool once; a second
acquire reuses it without logging; the pool's existence matches the
acquired types; expand by 3 on the registered pool adds exactly 3. -/
theorem spec_C7_witness :
    ((mapGet (Registry.run [RegOp.acq "Point"]).pools "Point").isSome = true
      ↔ "Point" ∈ acquiredTypes [RegOp.acq "Point"])
    ∧ (logCount (Registry.run [RegOp.acq "Point"]).createdLog "Point"
        = if (mapGet (Registry.run [RegOp.acq "Point"]).pools "Point").isSome then 1 else 0)
    ∧ (mapGet (Registry.start.acquireR "Point").2.pools "Point" = some (freshAcquired "Point")
      ∧ (Registry.start.acquireR "Point").2.createdLog = Registry.start.createdLog ++ ["Point"]
      ∧ (freshAcquired "Point").initialSize = INITIAL_POOL_SIZE)
    ∧ (((Registry.run [RegOp.acq "Point"]).acquireR "Point").2.pools
        = mapPut (Registry.run [RegOp.acq "Point"]).pools "Point"
            ((freshAcquired "Point").acquireM
              (Registry.run [RegOp.acq "Point"]).totalPooled).2.2
      ∧ ((Registry.run [RegOp.acq "Point"]).acquireR "Point").2.createdLog
          = (Registry.run [RegOp.acq "Point"]).createdLog)
    ∧ ((Registry.run [RegOp.acq "Point"]).expandR "Point" 3).2.totalPooled
        = (Registry.run [RegOp.acq "Point"]).totalPooled + (3 : Int) :=
  ⟨spec_C7.1 [RegOp.acq "Point"] "Point",
    spec_C7.2.1 [RegOp.acq "Point"] "Point",
    spec_C7.2.2.1 Registry.start "Point" (by decide),
    spec_C7.2.2.2.1 (Registry.run [RegOp.acq "Point"]) "Point" (freshAcquired "Point")
      (by decide),
    spec_C7.2.2.2.2.2 (Registry.run [RegOp.acq "Point"]) "Point" (freshAcquired "Point") 3
      (by decide)⟩


/-- C8: the registry's release raises the no-such-pool error exactly when
no pool is registered for the object's type: with no pool it returns that
error leaving the registry unchanged; with a registered pool it delegates
to that pool's release (whose errors are never no-such-pool); and over a
run from the initial registry, release errors with no-such-pool for t iff
t was never passed to acquire. -/
theorem spec_C8 :
    (∀ (r : Registry) (t : String) (x : Nat), mapGet r.pools t = none →
        r.releaseR t x = (some (PoolError.noSuchPool t), r))
    ∧ (∀ (r : Registry) (t : String) (p : Pool) (x : Nat), mapGet r.pools t = some p →
        r.releaseR t x = ((p.releaseM x).1,
          { r with pools := mapPut r.pools t (p.releaseM x).2 }))
    ∧ (∀ (r : Registry) (t : String) (x : Nat),
        (r.releaseR t x).1 = some (PoolError.noSuchPool t) → mapGet r.pools t = none)
    ∧ (∀ (ops : List RegOp) (t : String) (x : Nat),
        ((Registry.run ops).releaseR t x).1 = some (PoolError.noSuchPool t)
          ↔ t ∉ acquiredTypes ops) := by
  have hpart3 : ∀ (r : Registry) (t : String) (x : Nat),
      (r.releaseR t x).1 = some (PoolError.noSuchPool t) → mapGet r.pools t = none := by
    intro r t x herr
    cases hget : mapGet r.pools t with
    | none => rfl
    | some p =>
        rw [releaseR_some x hget] at herr
        rcases releaseM_err herr with hc | hc <;> simp at hc
  refine ⟨?_, ?_, hpart3, ?_⟩
  · intro r t x hget
    exact releaseR_none x hget
  · intro r t p x hget
    exact releaseR_some x hget
  · intro ops t x
    constructor
    · intro herr
      have hnone := hpart3 (Registry.run ops) t x herr
      intro hmem
      rw [← run_dom ops t] at hmem
      rw [hnone] at hmem
      simp at hmem
    · intro hmem
      have hnone : mapGet (Registry.run ops).pools t = none := by
        rw [← run_dom ops t] at hmem
        exact Option.not_isSome_iff_eq_none.mp (fun hs => hmem hs)
      rw [releaseR_none x hnone]

/-- Witness for C8 at concrete registries: releasing into the empty
registry errors with no-such-pool and leaves it unchanged; after one
acquire of "Point" the release delegates to the registered pool; the
no-such-pool iff holds both for the acquired type and a foreign type. -/
theorem spec_C8_witness :
    Registry.start.releaseR "Point" 0 = (some (PoolError.noSuchPool "Point"), Registry.start)
    ∧ (Registry.run [RegOp.acq "Point"]).releaseR "Point" 0
        = (((freshAcquired "Point").releaseM 0).1,
          { Registry.run [RegOp.acq "Point"] with
            pools := mapPut (Registry.run [RegOp.acq "Point"]).pools "Point"
              ((freshAcquired "Point").releaseM 0).2 })
    ∧ (((Registry.run [RegOp.acq "Point"]).releaseR "Point" 0).1
          = some (PoolError.noSuchPool "Point")
        ↔ "Point" ∉ acquiredTypes [RegOp.acq "Point"])
    ∧ (((Registry.run [RegOp.acq "Point"]).releaseR "Circle" 0).1
          = some (PoolError.noSuchPool "Circle")
        ↔ "Circle" ∉ acquiredTypes [RegOp.acq "Point"]) :=
  ⟨spec_C8.1 Registry.start "Point" 0 (by decide),
    spec_C8.2.1 (Registry.run [RegOp.acq "Point"]) "Point" (freshAcquired "Point") 0
      (by decide),
    spec_C8.2.2.2 [RegOp.acq "Point"] "Point" 0,
    spec_C8.2.2.2 [RegOp.acq "Point"] "Circle" 0⟩

end GC
